import Mathlib

/-!
# Othello board engine: shallow embedding of `othelloBoard.h`

The class `OthelloBoard<N, M>` is embedded as a record over a grid of
`unsigned char` cells, the ordered set `moves_` and the marker `lastPlayer_`.
Every member function is a function into `Except Fault`: reading or writing
`board_` outside `[0,N) × [0,M)` yields `Fault.outOfBounds` (the C++ behaviour is
undefined there, as it is for an iterator moved past or read at the end of `moves_`),
a remainder by 0 yields `Fault.divisionByZero`, and the direction-reversing ray loops
are run on explicit fuel and yield `Fault.outOfFuel` when it is exhausted.  A result `.ok _` therefore
says that the call terminated within its fuel and touched only cells of the grid.

Integer counters (`int` in the source) are unbounded integers here; they are
bounded by the number of cells `N * M`, resp. by `max N M + 1`, so that no
`int` overflow arises for any array the program can allocate.
-/

namespace Othello

/-- An `unsigned char`: the occupant of a cell, or a player identifier. -/
abbrev UChar := Fin 256

/-- Ways in which the embedded code can fail to produce a value. -/
inductive Fault where
  | outOfBounds
  | outOfFuel
  | divisionByZero
deriving DecidableEq, Repr

/-- The array `unsigned char board_[N][M]`. -/
abbrev Grid (N M : Nat) := Fin N → Fin M → UChar

/-- The coordinates stored in `std::set<std::pair<int, int>>`. -/
abbrev Coord := Int × Int

/-- The data members of `OthelloBoard<N, M>`. -/
structure OthelloBoard (N M : Nat) where
  board_ : Grid N M
  moves_ : List Coord
  lastPlayer_ : UChar

/-- `OthelloBoard::onBoard`. -/
def onBoard (N M : Nat) (x y : Int) : Bool :=
  decide (x ≥ 0) && decide (y ≥ 0) && decide (x < (N : Int)) && decide (y < (M : Int))

/-- The read `board_[x][y]`; a fault outside the array. -/
def readCell {N M : Nat} (b : Grid N M) (x y : Int) : Except Fault UChar :=
  if h : 0 ≤ x ∧ x < (N : Int) ∧ 0 ≤ y ∧ y < (M : Int) then
    .ok (b ⟨x.toNat, by omega⟩ ⟨y.toNat, by omega⟩)
  else .error .outOfBounds

/-- The write `board_[x][y] = v`; a fault outside the array. -/
def writeCell {N M : Nat} (b : Grid N M) (x y : Int) (v : UChar) : Except Fault (Grid N M) :=
  if 0 ≤ x ∧ x < (N : Int) ∧ 0 ≤ y ∧ y < (M : Int) then
    .ok (fun r c => if ((r.val : Int) = x ∧ (c.val : Int) = y) then v else b r c)
  else .error .outOfBounds

/-- The order `operator<` of `std::pair<int, int>`: by row, then by column. -/
def pairLt (a b : Coord) : Bool :=
  decide (a.1 < b.1) || (decide (a.1 = b.1) && decide (a.2 < b.2))

/-- The operation `std::set::insert` on the ascending list of the set's elements. -/
def setInsert (a : Coord) : List Coord → List Coord
  | [] => [a]
  | b :: l =>
    if pairLt a b then a :: b :: l
    else if pairLt b a then b :: setInsert a l
    else b :: l

/-- The operation `std::set::count` (0 or 1), as a Boolean. -/
def setCount (a : Coord) (l : List Coord) : Bool :=
  l.any (fun b => decide (b = a))

/-- The array `dirSet` of both scans. -/
def dirSet : List Int := [-1, 0, 1]

/-- Fuel handed to one ray loop: twice the longer side of the board. -/
def rayFuel (N M : Nat) : Nat := 2 * max N M

/-- The constructor `OthelloBoard()`: all cells 0, then the four centre cells. -/
def init (N M : Nat) : Except Fault (OthelloBoard N M) :=
  let b0 : Grid N M := fun _ _ => 0
  match writeCell b0 ((N : Int) / 2 - 1) ((M : Int) / 2 - 1) 2 with
  | .error e => .error e
  | .ok b1 =>
  match writeCell b1 ((N : Int) / 2) ((M : Int) / 2 - 1) 1 with
  | .error e => .error e
  | .ok b2 =>
  match writeCell b2 ((N : Int) / 2 - 1) ((M : Int) / 2) 1 with
  | .error e => .error e
  | .ok b3 =>
  match writeCell b3 ((N : Int) / 2) ((M : Int) / 2) 2 with
  | .error e => .error e
  | .ok b4 => .ok { board_ := b4, moves_ := [], lastPlayer_ := 0 }

/-- The innermost `for` loop of `avaliableMoves` (lines 91-101), started at
`(xp, yp)` with step sign `dir`, for the origin `(i, j)` and the direction
`(dirX, dirY)`; it threads the set `moves_`. -/
def avaliableMovesRay {N M : Nat} (b : Grid N M) (player : UChar) (i j dirX dirY : Int) :
    Nat → Int → Int → Int → List Coord → Except Fault (List Coord)
  | 0, _, _, _, _ => .error .outOfFuel
  | fuel + 1, xp, yp, dir, moves =>
    if onBoard N M xp yp && (dirX == 0 || i != xp) && (dirY == 0 || j != yp) then
      match readCell b xp yp with
      | .error e => .error e
      | .ok c =>
        if c == 0 then .ok moves
        else if dir == -1 then .ok (setInsert (i, j) moves)
        else
          match readCell b xp yp with
          | .error e => .error e
          | .ok c1 =>
            let dir1 : Int := if c1 == player then -1 else dir
            avaliableMovesRay b player i j dirX dirY fuel
              (xp + dir1 * dirX) (yp + dir1 * dirY) dir1 moves
    else .ok moves

/-- The two loops over `dirSet` in `avaliableMoves` for one blank square `(i, j)`. -/
def avaliableMovesCell {N M : Nat} (b : Grid N M) (player : UChar) (i j : Int)
    (moves : List Coord) : Except Fault (List Coord) :=
  dirSet.foldlM (fun mv dirX =>
    dirSet.foldlM (fun mv1 dirY =>
      if dirX != 0 || dirY != 0 then
        avaliableMovesRay b player i j dirX dirY (rayFuel N M) (i + dirX) (j + dirY) 1 mv1
      else .ok mv1) mv) moves

/-- The body of the loop over `j` in `avaliableMoves`: non-blank squares are skipped. -/
def avaliableMovesSquare {N M : Nat} (b : Grid N M) (player : UChar) (i j : Int)
    (moves : List Coord) : Except Fault (List Coord) :=
  match readCell b i j with
  | .error e => .error e
  | .ok c => if c != 0 then .ok moves else avaliableMovesCell b player i j moves

/-- `OthelloBoard::avaliableMoves`: the new state and the returned `moves_.size()`. -/
def avaliableMoves {N M : Nat} (s : OthelloBoard N M) (player : UChar) :
    Except Fault (OthelloBoard N M × Int) :=
  match (List.range N).foldlM (fun (mv : List Coord) (i : Nat) =>
      (List.range M).foldlM (fun (mv1 : List Coord) (j : Nat) =>
        avaliableMovesSquare s.board_ player (i : Int) (j : Int) mv1) mv) [] with
  | .error e => .error e
  | .ok moves => .ok ({ s with moves_ := moves }, (moves.length : Int))

/-- The innermost `for` loop of `play` (lines 131-141); it threads `board_` and `isLegal`. -/
def playRay {N M : Nat} (player : UChar) (x y dirX dirY : Int) :
    Nat → Int → Int → Int → Grid N M → Bool → Except Fault (Grid N M × Bool)
  | 0, _, _, _, _, _ => .error .outOfFuel
  | fuel + 1, xp, yp, dir, b, isLegal =>
    if onBoard N M xp yp && (dirX == 0 || x != xp) && (dirY == 0 || y != yp) then
      match readCell b xp yp with
      | .error e => .error e
      | .ok c =>
        if c == 0 then .ok (b, isLegal)
        else
          match (if dir == -1 then (writeCell b xp yp player).map (fun b1 => (b1, true))
                 else .ok (b, isLegal)) with
          | .error e => .error e
          | .ok (b1, isLegal1) =>
            match readCell b1 xp yp with
            | .error e => .error e
            | .ok c1 =>
              let dir1 : Int := if c1 == player then -1 else dir
              playRay player x y dirX dirY fuel
                (xp + dir1 * dirX) (yp + dir1 * dirY) dir1 b1 isLegal1
    else .ok (b, isLegal)

/-- The two loops over `dirSet` in `play` (lines 125-144). -/
def playFlips {N M : Nat} (player : UChar) (x y : Int) (b : Grid N M) (isLegal : Bool) :
    Except Fault (Grid N M × Bool) :=
  dirSet.foldlM (fun acc dirX =>
    dirSet.foldlM (fun acc1 dirY =>
      if dirX != 0 || dirY != 0 then
        playRay player x y dirX dirY (rayFuel N M) (x + dirX) (y + dirY) 1 acc1.1 acc1.2
      else .ok acc1) acc) (b, isLegal)

/-- `OthelloBoard::play`: the new state and the returned Boolean. -/
def play {N M : Nat} (s : OthelloBoard N M) (player : UChar) (x y : Int) :
    Except Fault (OthelloBoard N M × Bool) :=
  if !onBoard N M x y then .ok (s, false)
  else
    match readCell s.board_ x y with
    | .error e => .error e
    | .ok c =>
      if c != 0 then .ok (s, false)
      else if !setCount (x, y) s.moves_ then .ok (s, false)
      else
        match playFlips player x y s.board_ false with
        | .error e => .error e
        | .ok (b, isLegal) =>
          if isLegal then
            match writeCell b x y player with
            | .error e => .error e
            | .ok b1 => .ok ({ board_ := b1, moves_ := s.moves_, lastPlayer_ := player }, true)
          else .ok ({ s with board_ := b }, false)

/-- The statement `++player[board_[i][j]]` of `winner` (line 58). -/
def winnerTallyCell {N M : Nat} (b : Grid N M) (cnt : UChar → Int) (i j : Nat) :
    Except Fault (UChar → Int) :=
  match readCell b (i : Int) (j : Int) with
  | .error e => .error e
  | .ok c => .ok (fun k => if k = c then cnt k + 1 else cnt k)

/-- The tally loop of `winner` (lines 53-60): the array `player` is zeroed, then
incremented once for every cell. -/
def winnerTally {N M : Nat} (b : Grid N M) : Except Fault (UChar → Int) :=
  (List.range N).foldlM (fun (cnt : UChar → Int) (i : Nat) =>
    (List.range M).foldlM (fun (cnt1 : UChar → Int) (j : Nat) =>
      winnerTallyCell b cnt1 i j) cnt) (fun _ => 0)

/-- The selection loop of `winner` (lines 61-68) over the identifiers `ids`. -/
def winnerScan (cnt : UChar → Int) (ids : List Nat) (w : UChar) (wc : Int) : UChar × Int :=
  ids.foldl (fun acc i =>
    if cnt (Fin.ofNat i) > acc.2 then (Fin.ofNat i, cnt (Fin.ofNat i)) else acc) (w, wc)

/-- The identifiers `1, …, 255` in the order of the selection loop of `winner`. -/
def winnerIds : List Nat := (List.range 255).map (fun i => i + 1)

/-- `OthelloBoard::winner`. -/
def winner {N M : Nat} (s : OthelloBoard N M) : Except Fault UChar :=
  match winnerTally s.board_ with
  | .error e => .error e
  | .ok cnt => .ok (winnerScan cnt winnerIds 0 0).1

/-- `OthelloBoard::getLastPlayer`. -/
def getLastPlayer {N M : Nat} (s : OthelloBoard N M) : UChar := s.lastPlayer_

/-- `OthelloBoard::getValidPlays`. -/
def getValidPlays {N M : Nat} (s : OthelloBoard N M) : List Coord := s.moves_

/-! ## The random player: `othelloPlayerRandom.cpp` -/

/-- The largest value of `randDist_`, constructed as `randDist_(0, 10000000)`. -/
def randDistMax : Nat := 10000000

/-- The loop `for(int i = 0; i < n; ++i) ++iter;` of `returnPlay` on an iterator of
`moves_`, given as the list of the elements from its position on; `++iter` at the end of
the set is a fault. -/
def iterAdvance : Nat → List Coord → Except Fault (List Coord)
  | 0, it => .ok it
  | _ + 1, [] => .error .outOfBounds
  | n + 1, _ :: it => iterAdvance n it

/-- `OthelloPlayerRandom::returnPlay`: the pair written to the out-parameters `x`, `y`.
The board is received by `const` reference and is no output.  The members `randDist_`
and `mtRand_` are declared in a header that is not among the sources; the value
`randDist_(mtRand_)` drawn by the call is the parameter `randNum`. -/
def returnPlay (board : OthelloBoard 8 8) (randNum : Int) : Except Fault (Int × Int) :=
  let moves := getValidPlays board
  let nMoves : Int := (moves.length : Int)
  if nMoves = 0 then .error .divisionByZero
  else
    match iterAdvance (Int.tmod randNum nMoves).toNat moves with
    | .error e => .error e
    | .ok [] => .error .outOfBounds
    | .ok (q :: _) => .ok (q.1, q.2)

/-! ## Specification vocabulary -/

/-- One of the 8 compass directions: both components in `{-1, 0, 1}`, not both 0. -/
def IsDir (dx dy : Int) : Prop :=
  (dx = -1 ∨ dx = 0 ∨ dx = 1) ∧ (dy = -1 ∨ dy = 0 ∨ dy = 1) ∧ (dx ≠ 0 ∨ dy ≠ 0)

/-- Membership in the 8 directions is decidable. -/
instance instDecidableIsDir (dx dy : Int) : Decidable (IsDir dx dy) := by
  unfold IsDir
  exact inferInstance

/-- The cell `t` steps from `(x, y)` in direction `(dx, dy)` lies in the grid and its
occupant is neither Empty nor `p`. -/
def Opp {N M : Nat} (b : Grid N M) (p : UChar) (x y dx dy : Int) (t : Nat) : Prop :=
  ∃ c, readCell b (x + (t : Int) * dx) (y + (t : Int) * dy) = .ok c ∧ c ≠ 0 ∧ c ≠ p

/-- The cell `t` steps from `(x, y)` in direction `(dx, dy)` lies in the grid and holds a
piece of `p`: its occupant is `p` and it is not Empty.  For a player `p ≠ 0` this is
"the occupant is `p`"; for the reserved identifier 0 no cell holds a piece of it. -/
def Own {N M : Nat} (b : Grid N M) (p : UChar) (x y dx dy : Int) (t : Nat) : Prop :=
  ∃ c, readCell b (x + (t : Int) * dx) (y + (t : Int) * dy) = .ok c ∧ c ≠ 0 ∧ c = p

/-- The ray from `(x, y)` in direction `(dx, dy)` is capturing for `p` over `k` cells:
the cells at distances `1..k` (with `k ≥ 1`) are in the grid and hold pieces other than
`p`, and the cell at distance `k + 1` is in the grid and holds a piece of `p`. -/
def CapturingLen {N M : Nat} (b : Grid N M) (p : UChar) (x y dx dy : Int) (k : Nat) : Prop :=
  1 ≤ k ∧ (∀ t : Nat, 1 ≤ t → t ≤ k → Opp b p x y dx dy t) ∧ Own b p x y dx dy (k + 1)

/-- A capturing ray for `p`: one or more consecutive in-grid cells that hold pieces other
than `p`, then an in-grid cell that holds a piece of `p`. -/
def Capturing {N M : Nat} (b : Grid N M) (p : UChar) (x y dx dy : Int) : Prop :=
  ∃ k, CapturingLen b p x y dx dy k

/-- The cell `(a, c)` lies on the ray from `(x, y)` in direction `(dx, dy)` at a distance
between 1 and `k`. -/
def OnSegment (x y dx dy : Int) (k : Nat) (a c : Int) : Prop :=
  ∃ t : Nat, 1 ≤ t ∧ t ≤ k ∧ a = x + (t : Int) * dx ∧ c = y + (t : Int) * dy

/-- The cell `(a, c)` is one of the cells passed over by a capturing ray from `(x, y)`:
it lies on a capturing ray, between the cell adjacent to `(x, y)` and the cell before the
terminating piece of `p`. -/
def Flipped {N M : Nat} (b : Grid N M) (p : UChar) (x y a c : Int) : Prop :=
  ∃ dx dy k, IsDir dx dy ∧ CapturingLen b p x y dx dy k ∧ OnSegment x y dx dy k a c

/-- The cell `(x, y)` is a legal move for `p`: in the grid, Empty, and with at least one
capturing ray among the 8 directions. -/
def Legal {N M : Nat} (b : Grid N M) (p : UChar) (x y : Int) : Prop :=
  readCell b x y = .ok 0 ∧ ∃ dx dy, IsDir dx dy ∧ Capturing b p x y dx dy

/-- The preconditions under which `play(p, x, y)` commits: `(x, y)` is in the stored set
and is a legal move for `p` on the current grid. -/
def PlayOk {N M : Nat} (s : OthelloBoard N M) (p : UChar) (x y : Int) : Prop :=
  (x, y) ∈ s.moves_ ∧ Legal s.board_ p x y

/-- The directions in the order in which the two loops over `dirSet` visit them. -/
def dirs8 : List (Int × Int) :=
  [(-1, -1), (-1, 0), (-1, 1), (0, -1), (0, 1), (1, -1), (1, 0), (1, 1)]

/-- The cell `(a, c)` is passed over by a capturing ray whose direction is in `ds`. -/
def FlippedBy {N M : Nat} (b : Grid N M) (p : UChar) (x y : Int) (ds : List (Int × Int))
    (a c : Int) : Prop :=
  ∃ d ∈ ds, ∃ k, CapturingLen b p x y d.1 d.2 k ∧ OnSegment x y d.1 d.2 k a c

/-- The state of `play` after the rays in `done` have been processed, relative to the
grid `b0` and the flag `l0` at the start. -/
def FlipInv {N M : Nat} (b0 : Grid N M) (l0 : Bool) (p : UChar) (x y : Int)
    (done : List (Int × Int)) (b : Grid N M) (l : Bool) : Prop :=
  (l = true ↔ (l0 = true ∨ ∃ d ∈ done, Capturing b0 p x y d.1 d.2)) ∧
  (∀ a c, FlippedBy b0 p x y done a c → readCell b a c = .ok p) ∧
  (∀ a c, ¬ FlippedBy b0 p x y done a c → readCell b a c = readCell b0 a c)

/-- A committed `play`: the grid after the call. -/
def PlayResult {N M : Nat} (s : OthelloBoard N M) (p : UChar) (x y : Int)
    (b1 : Grid N M) : Prop :=
  readCell b1 x y = .ok p ∧
  (∀ a c, Flipped s.board_ p x y a c → readCell b1 a c = .ok p) ∧
  (∀ a c, ¬ Flipped s.board_ p x y a c → ¬ (a = x ∧ c = y) →
    readCell b1 a c = readCell s.board_ a c)

/-- The number of cells of row `r` whose occupant is `v`. -/
def rowCount {N M : Nat} (b : Grid N M) (v : UChar) (r : Fin N) : Nat :=
  (List.finRange M).countP (fun c => decide (b r c = v))

/-- The number of cells of the grid whose occupant is `v`. -/
def cellCount {N M : Nat} (b : Grid N M) (v : UChar) : Nat :=
  ((List.finRange N).map (rowCount b v)).sum

/-- The number of cells `(r, c)` of the grid that satisfy `P r c`. -/
def gridCount {N M : Nat} (P : Fin N → Fin M → Bool) : Nat :=
  ((List.finRange N).map (fun r => (List.finRange M).countP (P r))).sum

/-- The number of cells that hold a piece of an identifier other than `p`. -/
def otherCount {N M : Nat} (b : Grid N M) (p : UChar) : Nat :=
  gridCount (fun r c => decide (b r c ≠ 0 ∧ b r c ≠ p))

/-- The list is the ascending listing of a `std::set<std::pair<int, int>>`: strictly
increasing by row, then by column. -/
def SetOrdered (l : List Coord) : Prop :=
  l.Pairwise (fun a b => pairLt a b = true)

/-- The draw `randNum` makes `returnPlay` output the move `q`. -/
def selects (board : OthelloBoard 8 8) (randNum : Int) (q : Coord) : Bool :=
  match returnPlay board randNum with
  | .ok a => decide (a = q)
  | .error _ => false

/-- The number of values of the draw in `0..10000000` for which `returnPlay` outputs `q`. -/
def drawCount (board : OthelloBoard 8 8) (q : Coord) : Nat :=
  (List.range (randDistMax + 1)).countP (fun (r : Nat) => selects board (r : Int) q)

/-- The states reachable from a freshly constructed board by calls of `avaliableMoves`
and `play`. -/
inductive Reachable {N M : Nat} : OthelloBoard N M → Prop where
  | fresh (s : OthelloBoard N M) : init N M = .ok s → Reachable s
  | avail (s s1 : OthelloBoard N M) (p : UChar) (n : Int) :
      Reachable s → avaliableMoves s p = .ok (s1, n) → Reachable s1
  | played (s s1 : OthelloBoard N M) (p : UChar) (x y : Int) (r : Bool) :
      Reachable s → play s p x y = .ok (s1, r) → Reachable s1

/-- Reachable states together with the list of the squares on which a `play` call has
placed a piece since `moves_` was last computed (since construction, if it never was). -/
inductive ReachableSince {N M : Nat} : OthelloBoard N M → List Coord → Prop where
  | fresh (s : OthelloBoard N M) : init N M = .ok s → ReachableSince s []
  | avail (s s1 : OthelloBoard N M) (g : List Coord) (p : UChar) (n : Int) :
      ReachableSince s g → avaliableMoves s p = .ok (s1, n) → ReachableSince s1 []
  | played (s s1 : OthelloBoard N M) (g : List Coord) (p : UChar) (x y : Int) (r : Bool) :
      ReachableSince s g → play s p x y = .ok (s1, r) →
      ReachableSince s1 (if r then (x, y) :: g else g)

/-- Reachable states together with the player argument of the most recent `play` call
that returned true (`none` while no `play` call has returned true). -/
inductive ReachableMark {N M : Nat} : OthelloBoard N M → Option UChar → Prop where
  | fresh (s : OthelloBoard N M) : init N M = .ok s → ReachableMark s none
  | avail (s s1 : OthelloBoard N M) (m : Option UChar) (p : UChar) (n : Int) :
      ReachableMark s m → avaliableMoves s p = .ok (s1, n) → ReachableMark s1 m
  | played (s s1 : OthelloBoard N M) (m : Option UChar) (p : UChar) (x y : Int) (r : Bool) :
      ReachableMark s m → play s p x y = .ok (s1, r) →
      ReachableMark s1 (if r then some p else m)

/-- States reachable by calls whose player identifiers are among the 254 valid ones
(`1..254`), together with the identifiers placed at construction (1 and 2) or passed to a
`play` call that returned true. -/
inductive ReachableValid {N M : Nat} : OthelloBoard N M → List UChar → Prop where
  | fresh (s : OthelloBoard N M) : init N M = .ok s → ReachableValid s [1, 2]
  | avail (s s1 : OthelloBoard N M) (ids : List UChar) (p : UChar) (n : Int) :
      1 ≤ p.val → p.val ≤ 254 →
      ReachableValid s ids → avaliableMoves s p = .ok (s1, n) → ReachableValid s1 ids
  | played (s s1 : OthelloBoard N M) (ids : List UChar) (p : UChar) (x y : Int) (r : Bool) :
      1 ≤ p.val → p.val ≤ 254 →
      ReachableValid s ids → play s p x y = .ok (s1, r) →
      ReachableValid s1 (if r then p :: ids else ids)

/-- The grid of the 8 x 8 starting position. -/
def startGrid : Grid 8 8 := fun r c =>
  if (r.val = 3 ∧ c.val = 3) ∨ (r.val = 4 ∧ c.val = 4) then 2
  else if (r.val = 4 ∧ c.val = 3) ∨ (r.val = 3 ∧ c.val = 4) then 1
  else 0

/-- The 8 x 8 starting position with the legal moves of player 1 stored. -/
def startState : OthelloBoard 8 8 :=
  { board_ := startGrid, moves_ := [(2, 3), (3, 2), (4, 5), (5, 4)], lastPlayer_ := 0 }

/-! ## Cells -/

theorem onBoard_iff {N M : Nat} {x y : Int} :
    onBoard N M x y = true ↔ 0 ≤ x ∧ x < (N : Int) ∧ 0 ≤ y ∧ y < (M : Int) := by
  simp only [onBoard, Bool.and_eq_true, decide_eq_true_eq, ge_iff_le]
  constructor
  · rintro ⟨⟨⟨h1, h2⟩, h3⟩, h4⟩
    exact ⟨h1, h3, h2, h4⟩
  · rintro ⟨h1, h3, h2, h4⟩
    exact ⟨⟨⟨h1, h2⟩, h3⟩, h4⟩

theorem readCell_ok_of_onBoard {N M : Nat} (b : Grid N M) {x y : Int}
    (h : onBoard N M x y = true) : ∃ c, readCell b x y = .ok c := by
  have h1 := onBoard_iff.mp h
  unfold readCell
  rw [dif_pos h1]
  exact ⟨_, rfl⟩

theorem onBoard_of_readCell {N M : Nat} {b : Grid N M} {x y : Int} {c : UChar}
    (h : readCell b x y = .ok c) : onBoard N M x y = true := by
  unfold readCell at h
  split at h
  · rename_i h1
    exact onBoard_iff.mpr h1
  · cases h

theorem readCell_error {N M : Nat} (b : Grid N M) {x y : Int}
    (h : ¬ onBoard N M x y = true) : readCell b x y = .error .outOfBounds := by
  unfold readCell
  rw [dif_neg]
  intro h1
  exact h (onBoard_iff.mpr h1)

theorem readCell_fin {N M : Nat} (b : Grid N M) (r : Fin N) (c : Fin M) :
    readCell b (r.val : Int) (c.val : Int) = .ok (b r c) := by
  have h1 : 0 ≤ (r.val : Int) ∧ (r.val : Int) < (N : Int) ∧
      0 ≤ (c.val : Int) ∧ (c.val : Int) < (M : Int) := by
    have := r.isLt
    have := c.isLt
    omega
  unfold readCell
  rw [dif_pos h1]
  simp

theorem grid_ext {N M : Nat} {b b' : Grid N M}
    (h : ∀ a c : Int, readCell b' a c = readCell b a c) : b' = b := by
  funext r c
  have h1 := h (r.val : Int) (c.val : Int)
  rw [readCell_fin, readCell_fin] at h1
  exact Except.ok.inj h1

theorem writeCell_ok_of_onBoard {N M : Nat} (b : Grid N M) {x y : Int} (v : UChar)
    (h : onBoard N M x y = true) : ∃ b', writeCell b x y v = .ok b' := by
  have h1 := onBoard_iff.mp h
  unfold writeCell
  rw [if_pos h1]
  exact ⟨_, rfl⟩

theorem readCell_writeCell {N M : Nat} {b b' : Grid N M} {x y : Int} {v : UChar}
    (h : writeCell b x y v = .ok b') (a c : Int) :
    readCell b' a c = if a = x ∧ c = y then .ok v else readCell b a c := by
  unfold writeCell at h
  split at h
  · rename_i hxy
    have hb := Except.ok.inj h
    subst hb
    by_cases hac : onBoard N M a c = true
    · have h1 := onBoard_iff.mp hac
      unfold readCell
      rw [dif_pos h1, dif_pos h1]
      have e1 : ((a.toNat : Nat) : Int) = a := Int.toNat_of_nonneg h1.1
      have e2 : ((c.toNat : Nat) : Int) = c := Int.toNat_of_nonneg h1.2.2.1
      simp only [e1, e2]
      split <;> rfl
    · rw [readCell_error _ hac, readCell_error _ hac]
      rw [if_neg]
      rintro ⟨rfl, rfl⟩
      exact hac (onBoard_iff.mpr hxy)
  · cases h

/-! ## Geometry of a ray -/

theorem ray_cond_pos {dx dy : Int} (hd : IsDir dx dy) (x y : Int) {t : Nat} (ht : 1 ≤ t)
    (ob : Bool) :
    (ob && (dx == 0 || x != x + (t : Int) * dx) && (dy == 0 || y != y + (t : Int) * dy))
      = ob := by
  have ht1 : (1 : Int) ≤ (t : Int) := by exact_mod_cast ht
  obtain ⟨h1, h2, h3⟩ := hd
  cases ob <;> rcases h1 with rfl | rfl | rfl <;> rcases h2 with rfl | rfl | rfl <;>
    simp at h3 ⊢ <;> omega

theorem ray_cond_zero {dx dy : Int} (hd : IsDir dx dy) (x y : Int) (ob : Bool) :
    (ob && (dx == 0 || x != x + ((0 : Nat) : Int) * dx) &&
      (dy == 0 || y != y + ((0 : Nat) : Int) * dy)) = false := by
  obtain ⟨h1, h2, h3⟩ := hd
  cases ob <;> rcases h1 with rfl | rfl | rfl <;> rcases h2 with rfl | rfl | rfl <;>
    simp at h3 ⊢

theorem ray_bound {N M : Nat} {dx dy : Int} (hd : IsDir dx dy) {x y : Int}
    (hxy : onBoard N M x y = true) {t : Nat}
    (ht : onBoard N M (x + (t : Int) * dx) (y + (t : Int) * dy) = true) : t < max N M := by
  have h0 := onBoard_iff.mp hxy
  have h1 := onBoard_iff.mp ht
  obtain ⟨h1x, h2x, h3x⟩ := hd
  have hm1 : N ≤ max N M := le_max_left _ _
  have hm2 : M ≤ max N M := le_max_right _ _
  rcases h1x with rfl | rfl | rfl <;> rcases h2x with rfl | rfl | rfl <;>
    simp at h3x h1 <;> omega

theorem ray_injective {dx dy : Int} (hd : IsDir dx dy) (x y : Int) {s t : Nat}
    (h1 : x + (s : Int) * dx = x + (t : Int) * dx)
    (h2 : y + (s : Int) * dy = y + (t : Int) * dy) : s = t := by
  obtain ⟨h1x, h2x, h3x⟩ := hd
  rcases h1x with rfl | rfl | rfl <;> rcases h2x with rfl | rfl | rfl <;>
    simp at h3x h1 h2 <;> omega

theorem rays_disjoint {dx dy ex ey : Int} (hd : IsDir dx dy) (he : IsDir ex ey)
    (hne : ¬ (dx = ex ∧ dy = ey)) (x y : Int) {s t : Nat} (hs : 1 ≤ s) (ht : 1 ≤ t)
    (h1 : x + (s : Int) * dx = x + (t : Int) * ex)
    (h2 : y + (s : Int) * dy = y + (t : Int) * ey) : False := by
  obtain ⟨h1x, h2x, h3x⟩ := hd
  obtain ⟨h1y, h2y, h3y⟩ := he
  rcases h1x with rfl | rfl | rfl <;> rcases h2x with rfl | rfl | rfl <;>
    rcases h1y with rfl | rfl | rfl <;> rcases h2y with rfl | rfl | rfl <;>
    simp at h3x h3y hne h1 h2 <;> omega

theorem opp_not_own {N M : Nat} {b : Grid N M} {p : UChar} {x y dx dy : Int} {t : Nat}
    (h1 : Opp b p x y dx dy t) (h2 : Own b p x y dx dy t) : False := by
  obtain ⟨c, hc, _, hcp⟩ := h1
  obtain ⟨c', hc', _, hcp'⟩ := h2
  rw [hc] at hc'
  have := Except.ok.inj hc'
  exact hcp (this.trans hcp')

theorem capturingLen_unique {N M : Nat} {b : Grid N M} {p : UChar} {x y dx dy : Int}
    {k k' : Nat} (h : CapturingLen b p x y dx dy k) (h' : CapturingLen b p x y dx dy k') :
    k = k' := by
  rcases Nat.lt_trichotomy k k' with hlt | heq | hgt
  · exact (opp_not_own (h'.2.1 (k + 1) (by omega) (by omega)) h.2.2).elim
  · exact heq
  · exact (opp_not_own (h.2.1 (k' + 1) (by omega) (by omega)) h'.2.2).elim

theorem not_capturing_of_stop {N M : Nat} {b : Grid N M} {p : UChar} {x y dx dy : Int}
    {t : Nat} (ht : 1 ≤ t) (hprev : ∀ s, 1 ≤ s → s < t → Opp b p x y dx dy s)
    (hno : ¬ Opp b p x y dx dy t) (hown : 2 ≤ t → ¬ Own b p x y dx dy t) :
    ¬ Capturing b p x y dx dy := by
  rintro ⟨k, hk1, hopp, hterm⟩
  rcases Nat.lt_trichotomy (k + 1) t with hlt | heq | hgt
  · exact opp_not_own (hprev (k + 1) (by omega) hlt) hterm
  · subst heq
    exact hown (by omega) hterm
  · exact hno (hopp t ht (by omega))

/-! ## The ray loop of `avaliableMoves` -/

theorem ray_step_back (x dx : Int) (t : Nat) :
    x + ((t + 1 : Nat) : Int) * dx + -1 * dx = x + (t : Int) * dx := by
  push_cast
  ring

theorem ray_step_out (x dx : Int) (t : Nat) :
    x + (t : Int) * dx + 1 * dx = x + ((t + 1 : Nat) : Int) * dx := by
  push_cast
  ring

theorem ray_start (x dx : Int) : x + dx = x + ((1 : Nat) : Int) * dx := by
  simp

/-- Walking back (`dir == -1`) in `avaliableMoves`: the first cell met, if it is not the
origin, triggers the insertion. -/
theorem avaliableMovesRay_back {N M : Nat} (b : Grid N M) (p : UChar) {i j dx dy : Int}
    (hd : IsDir dx dy) (moves : List Coord) (fuel t : Nat)
    (hprev : ∀ s, 1 ≤ s → s ≤ t → Opp b p i j dx dy s) :
    avaliableMovesRay b p i j dx dy (fuel + 1) (i + (t : Int) * dx) (j + (t : Int) * dy)
      (-1) moves = .ok (if t = 0 then moves else setInsert (i, j) moves) := by
  rcases Nat.eq_zero_or_pos t with h0 | hpos
  · subst h0
    rw [avaliableMovesRay, ray_cond_zero hd]
    simp
  · obtain ⟨c, hc, hc0, _⟩ := hprev t hpos le_rfl
    rw [avaliableMovesRay, ray_cond_pos hd _ _ hpos, onBoard_of_readCell hc]
    simp [hc, hc0]
    rw [if_neg (by omega)]

theorem opp_iff {N M : Nat} {b : Grid N M} {p : UChar} {x y dx dy : Int} {t : Nat}
    {c : UChar} (hc : readCell b (x + (t : Int) * dx) (y + (t : Int) * dy) = .ok c) :
    Opp b p x y dx dy t ↔ c ≠ 0 ∧ c ≠ p := by
  constructor
  · rintro ⟨c', hc', h1, h2⟩
    rw [hc] at hc'
    cases hc'
    exact ⟨h1, h2⟩
  · rintro ⟨h1, h2⟩
    exact ⟨c, hc, h1, h2⟩

theorem own_iff {N M : Nat} {b : Grid N M} {p : UChar} {x y dx dy : Int} {t : Nat}
    {c : UChar} (hc : readCell b (x + (t : Int) * dx) (y + (t : Int) * dy) = .ok c) :
    Own b p x y dx dy t ↔ c ≠ 0 ∧ c = p := by
  constructor
  · rintro ⟨c', hc', h1, h2⟩
    rw [hc] at hc'
    cases hc'
    exact ⟨h1, h2⟩
  · rintro ⟨h1, h2⟩
    exact ⟨c, hc, h1, h2⟩

theorem not_opp_of_off {N M : Nat} {b : Grid N M} {p : UChar} {x y dx dy : Int} {t : Nat}
    (h : ¬ onBoard N M (x + (t : Int) * dx) (y + (t : Int) * dy) = true) :
    ¬ Opp b p x y dx dy t := by
  rintro ⟨c, hc, _, _⟩
  exact h (onBoard_of_readCell hc)

theorem not_own_of_off {N M : Nat} {b : Grid N M} {p : UChar} {x y dx dy : Int} {t : Nat}
    (h : ¬ onBoard N M (x + (t : Int) * dx) (y + (t : Int) * dy) = true) :
    ¬ Own b p x y dx dy t := by
  rintro ⟨c, hc, _, _⟩
  exact h (onBoard_of_readCell hc)

theorem max_pos_of_onBoard {N M : Nat} {x y : Int} (h : onBoard N M x y = true) :
    1 ≤ max N M := by
  have h0 := onBoard_iff.mp h
  have hm1 : N ≤ max N M := le_max_left _ _
  omega

/-- Walking outward (`dir == 1`) in `avaliableMoves` from distance `t`, all nearer cells
holding opposing pieces: the loop ends normally, and it inserts the origin exactly when
the ray is capturing. -/
theorem avaliableMovesRay_out {N M : Nat} (b : Grid N M) (p : UChar) {i j dx dy : Int}
    (hd : IsDir dx dy) (hij : onBoard N M i j = true) (moves : List Coord) :
    ∀ (fuel t : Nat), 1 ≤ t → max N M + 1 ≤ fuel + t →
      (∀ s, 1 ≤ s → s < t → Opp b p i j dx dy s) →
      (avaliableMovesRay b p i j dx dy fuel (i + (t : Int) * dx) (j + (t : Int) * dy) 1 moves
          = .ok (setInsert (i, j) moves) ∧ Capturing b p i j dx dy) ∨
      (avaliableMovesRay b p i j dx dy fuel (i + (t : Int) * dx) (j + (t : Int) * dy) 1 moves
          = .ok moves ∧ ¬ Capturing b p i j dx dy) := by
  intro fuel
  induction fuel with
  | zero =>
    intro t ht hf hprev
    exfalso
    have hL := max_pos_of_onBoard hij
    obtain ⟨c, hc, _, _⟩ := hprev (t - 1) (by omega) (by omega)
    have hb := ray_bound hd hij (onBoard_of_readCell hc)
    omega
  | succ f ih =>
    intro t ht hf hprev
    rw [avaliableMovesRay, ray_cond_pos hd _ _ ht]
    by_cases hob : onBoard N M (i + (t : Int) * dx) (j + (t : Int) * dy) = true
    · obtain ⟨c, hc⟩ := readCell_ok_of_onBoard b hob
      have hlt := ray_bound hd hij hob
      rw [if_pos hob]
      simp only [hc]
      by_cases hc0 : c = 0
      · right
        refine ⟨by simp [hc0], not_capturing_of_stop ht hprev ?_ ?_⟩
        · rw [opp_iff hc]; tauto
        · intro _; rw [own_iff hc]; tauto
      · by_cases hcp : c = p
        · obtain ⟨f', rfl⟩ : ∃ f', f = f' + 1 := ⟨f - 1, by omega⟩
          obtain ⟨t', rfl⟩ : ∃ t', t = t' + 1 := ⟨t - 1, by omega⟩
          have hback := avaliableMovesRay_back b p hd moves f' t'
            (fun s h1 h2 => hprev s h1 (by omega))
          have hown : Own b p i j dx dy (t' + 1) := (own_iff hc).mpr ⟨hc0, hcp⟩
          have hp0 : p ≠ 0 := hcp ▸ hc0
          simp only [beq_iff_eq, hp0, if_false, hcp, if_true, ray_step_back]
          rw [if_neg (by decide), hback]
          by_cases ht0 : t' = 0
          · right
            refine ⟨by simp [ht0], not_capturing_of_stop ht hprev ?_ ?_⟩
            · intro h; exact opp_not_own h hown
            · intro h; omega
          · left
            refine ⟨by simp [ht0], t', by omega, fun s h1 h2 => hprev s h1 (by omega), hown⟩
        · have hopp : Opp b p i j dx dy t := (opp_iff hc).mpr ⟨hc0, hcp⟩
          simp only [beq_iff_eq, hc0, if_false, hcp, ray_step_out]
          rw [if_neg (by decide)]
          refine ih (t + 1) (by omega) (by omega) ?_
          intro s h1 h2
          rcases Nat.lt_or_ge s t with h3 | h3
          · exact hprev s h1 h3
          · have : s = t := by omega
            subst this
            exact hopp
    · right
      rw [if_neg hob]
      exact ⟨rfl, not_capturing_of_stop ht hprev (not_opp_of_off hob)
        (fun _ => not_own_of_off hob)⟩

/-! ## The eight directions -/

theorem mem_dirs8_iff (d : Int × Int) : d ∈ dirs8 ↔ IsDir d.1 d.2 := by
  obtain ⟨dx, dy⟩ := d
  simp only [dirs8, IsDir, List.mem_cons, Prod.mk.injEq, List.mem_singleton, List.mem_nil_iff]
  constructor
  · intro h
    rcases h with h | h | h | h | h | h | h | h | h
    all_goals first | (obtain ⟨rfl, rfl⟩ := h; decide) | exact h.elim
  · rintro ⟨h1, h2, h3⟩
    rcases h1 with rfl | rfl | rfl <;> rcases h2 with rfl | rfl | rfl <;> simp at h3 ⊢

theorem avaliableMovesCell_eq {N M : Nat} (b : Grid N M) (p : UChar) (i j : Int)
    (moves : List Coord) :
    avaliableMovesCell b p i j moves =
      dirs8.foldlM (fun mv d =>
        avaliableMovesRay b p i j d.1 d.2 (rayFuel N M) (i + d.1) (j + d.2) 1 mv) moves := by
  simp [avaliableMovesCell, dirSet, dirs8, List.foldlM]
  rfl

/-! ## The ordered set `moves_` -/

theorem pairLt_irrefl (a : Coord) : pairLt a a = false := by
  simp [pairLt]

theorem pairLt_asymm {a b : Coord} (h : pairLt a b = true) : pairLt b a = false := by
  obtain ⟨a1, a2⟩ := a
  obtain ⟨b1, b2⟩ := b
  simp only [pairLt, Bool.or_eq_true, Bool.and_eq_true, decide_eq_true_eq] at h
  simp only [pairLt, Bool.or_eq_false_iff, Bool.and_eq_false_iff, decide_eq_false_iff_not]
  omega

theorem pairLt_total {a b : Coord} (h1 : pairLt a b = false) (h2 : pairLt b a = false) :
    a = b := by
  obtain ⟨a1, a2⟩ := a
  obtain ⟨b1, b2⟩ := b
  simp only [pairLt, Bool.or_eq_false_iff, Bool.and_eq_false_iff,
    decide_eq_false_iff_not] at h1 h2
  have e1 : a1 = b1 := by omega
  have e2 : a2 = b2 := by omega
  rw [e1, e2]

theorem mem_setInsert (a q : Coord) (l : List Coord) :
    q ∈ setInsert a l ↔ q = a ∨ q ∈ l := by
  induction l with
  | nil => simp [setInsert]
  | cons b l ih =>
    unfold setInsert
    by_cases h1 : pairLt a b = true
    · simp [h1]
    · by_cases h2 : pairLt b a = true
      · simp only [h1, h2, if_true, if_false, List.mem_cons, ih, Bool.false_eq_true]
        tauto
      · have hab : a = b := pairLt_total (by simpa using h1) (by simpa using h2)
        subst hab
        simp [h1]

theorem setInsert_idem (a : Coord) (l : List Coord) :
    setInsert a (setInsert a l) = setInsert a l := by
  induction l with
  | nil => simp [setInsert, pairLt_irrefl]
  | cons b l ih =>
    by_cases h1 : pairLt a b = true
    · simp [setInsert, h1, pairLt_irrefl]
    · by_cases h2 : pairLt b a = true
      · simp [setInsert, h1, h2, ih]
      · simp [setInsert, h1, h2]

theorem setCount_iff (a : Coord) (l : List Coord) : setCount a l = true ↔ a ∈ l := by
  simp [setCount]

/-! ## One blank square of `avaliableMoves` -/

theorem avaliableMovesRay_spec {N M : Nat} (b : Grid N M) (p : UChar) {i j dx dy : Int}
    (hd : IsDir dx dy) (hij : onBoard N M i j = true) (moves : List Coord) :
    (avaliableMovesRay b p i j dx dy (rayFuel N M) (i + dx) (j + dy) 1 moves
        = .ok (setInsert (i, j) moves) ∧ Capturing b p i j dx dy) ∨
    (avaliableMovesRay b p i j dx dy (rayFuel N M) (i + dx) (j + dy) 1 moves
        = .ok moves ∧ ¬ Capturing b p i j dx dy) := by
  have h := avaliableMovesRay_out b p hd hij moves (rayFuel N M) 1 le_rfl
    (by unfold rayFuel; omega) (fun s h1 h2 => by omega)
  rw [← ray_start, ← ray_start] at h
  exact h

theorem avaliableMovesDirs_spec {N M : Nat} (b : Grid N M) (p : UChar) {i j : Int}
    (hij : onBoard N M i j = true) :
    ∀ (ds : List (Int × Int)), (∀ d ∈ ds, IsDir d.1 d.2) → ∀ moves : List Coord,
      (ds.foldlM (fun mv d =>
          avaliableMovesRay b p i j d.1 d.2 (rayFuel N M) (i + d.1) (j + d.2) 1 mv) moves
          = .ok (setInsert (i, j) moves) ∧ ∃ d ∈ ds, Capturing b p i j d.1 d.2) ∨
      (ds.foldlM (fun mv d =>
          avaliableMovesRay b p i j d.1 d.2 (rayFuel N M) (i + d.1) (j + d.2) 1 mv) moves
          = .ok moves ∧ ¬ ∃ d ∈ ds, Capturing b p i j d.1 d.2) := by
  intro ds
  induction ds with
  | nil =>
    intro _ moves
    right
    simp [List.foldlM, pure, Except.pure]
  | cons d ds ih =>
    intro hds moves
    have hd := hds d (List.mem_cons_self _ _)
    have hrest : ∀ e ∈ ds, IsDir e.1 e.2 := fun e he => hds e (List.mem_cons_of_mem _ he)
    rw [List.foldlM_cons]
    rcases avaliableMovesRay_spec b p hd hij moves with ⟨h1, hcap⟩ | ⟨h1, hcap⟩
    · rw [h1]
      left
      refine ⟨?_, d, List.mem_cons_self _ _, hcap⟩
      rcases ih hrest (setInsert (i, j) moves) with ⟨h2, _⟩ | ⟨h2, _⟩
      · simpa [bind, Except.bind, setInsert_idem] using h2
      · simpa [bind, Except.bind] using h2
    · rw [h1]
      rcases ih hrest moves with ⟨h2, e, he, hcap2⟩ | ⟨h2, hno⟩
      · left
        exact ⟨by simpa [bind, Except.bind] using h2, e, List.mem_cons_of_mem _ he, hcap2⟩
      · right
        refine ⟨by simpa [bind, Except.bind] using h2, ?_⟩
        rintro ⟨e, he, hcap2⟩
        rcases List.mem_cons.mp he with rfl | he'
        · exact hcap hcap2
        · exact hno ⟨e, he', hcap2⟩

/-- One square of the scan: a non-blank square is skipped, a blank square is inserted
exactly when it is a legal move; the loop body never faults. -/
theorem avaliableMovesSquare_spec {N M : Nat} (b : Grid N M) (p : UChar) {i j : Int}
    (hij : onBoard N M i j = true) (moves : List Coord) :
    (avaliableMovesSquare b p i j moves = .ok (setInsert (i, j) moves) ∧ Legal b p i j) ∨
    (avaliableMovesSquare b p i j moves = .ok moves ∧ ¬ Legal b p i j) := by
  obtain ⟨c, hc⟩ := readCell_ok_of_onBoard b hij
  unfold avaliableMovesSquare
  simp only [hc]
  by_cases hc0 : c = 0
  · subst hc0
    simp only [bne_self_eq_false, Bool.false_eq_true, if_false, avaliableMovesCell_eq]
    rcases avaliableMovesDirs_spec b p hij dirs8
      (fun d hd => (mem_dirs8_iff d).mp hd) moves with ⟨h, d, hd, hcap⟩ | ⟨h, hno⟩
    · left
      exact ⟨h, hc, d.1, d.2, (mem_dirs8_iff d).mp hd, hcap⟩
    · right
      refine ⟨h, ?_⟩
      rintro ⟨_, dx, dy, hd, hcap⟩
      exact hno ⟨(dx, dy), (mem_dirs8_iff (dx, dy)).mpr hd, hcap⟩
  · right
    refine ⟨by simp [hc0], ?_⟩
    rintro ⟨h0, _⟩
    rw [hc] at h0
    exact hc0 (Except.ok.inj h0)

/-! ## The scan of all squares -/

theorem avaliableMovesRow_spec {N M : Nat} (b : Grid N M) (p : UChar) {i : Nat} (hi : i < N) :
    ∀ (js : List Nat), (∀ j ∈ js, j < M) → ∀ moves : List Coord,
      ∃ mv, js.foldlM (fun (mv1 : List Coord) (j : Nat) =>
          avaliableMovesSquare b p (i : Int) (j : Int) mv1) moves = .ok mv ∧
        ∀ q : Coord, q ∈ mv ↔
          q ∈ moves ∨ ∃ j ∈ js, q = ((i : Int), (j : Int)) ∧ Legal b p (i : Int) (j : Int) := by
  intro js
  induction js with
  | nil =>
    intro _ moves
    exact ⟨moves, by simp [List.foldlM, pure, Except.pure], by simp⟩
  | cons j js ih =>
    intro hjs moves
    have hj := hjs j (List.mem_cons_self _ _)
    have hij : onBoard N M (i : Int) (j : Int) = true := onBoard_iff.mpr (by omega)
    rw [List.foldlM_cons]
    rcases avaliableMovesSquare_spec b p hij moves with ⟨h1, hl⟩ | ⟨h1, hl⟩
    · obtain ⟨mv, h2, hmv⟩ := ih (fun k hk => hjs k (List.mem_cons_of_mem _ hk))
        (setInsert ((i : Int), (j : Int)) moves)
      refine ⟨mv, by simpa [h1, bind, Except.bind] using h2, ?_⟩
      intro q
      rw [hmv q, mem_setInsert]
      constructor
      · rintro ((rfl | h) | ⟨k, hk, rfl, hleg⟩)
        · exact Or.inr ⟨j, List.mem_cons_self _ _, rfl, hl⟩
        · exact Or.inl h
        · exact Or.inr ⟨k, List.mem_cons_of_mem _ hk, rfl, hleg⟩
      · rintro (h | ⟨k, hk, rfl, hleg⟩)
        · exact Or.inl (Or.inr h)
        · rcases List.mem_cons.mp hk with rfl | hk'
          · exact Or.inl (Or.inl rfl)
          · exact Or.inr ⟨k, hk', rfl, hleg⟩
    · obtain ⟨mv, h2, hmv⟩ := ih (fun k hk => hjs k (List.mem_cons_of_mem _ hk)) moves
      refine ⟨mv, by simpa [h1, bind, Except.bind] using h2, ?_⟩
      intro q
      rw [hmv q]
      constructor
      · rintro (h | ⟨k, hk, rfl, hleg⟩)
        · exact Or.inl h
        · exact Or.inr ⟨k, List.mem_cons_of_mem _ hk, rfl, hleg⟩
      · rintro (h | ⟨k, hk, rfl, hleg⟩)
        · exact Or.inl h
        · rcases List.mem_cons.mp hk with rfl | hk'
          · exact (hl hleg).elim
          · exact Or.inr ⟨k, hk', rfl, hleg⟩

theorem avaliableMovesRows_spec {N M : Nat} (b : Grid N M) (p : UChar) :
    ∀ (rows : List Nat), (∀ i ∈ rows, i < N) → ∀ moves : List Coord,
      ∃ mv, rows.foldlM (fun (mv0 : List Coord) (i : Nat) =>
          (List.range M).foldlM (fun (mv1 : List Coord) (j : Nat) =>
            avaliableMovesSquare b p (i : Int) (j : Int) mv1) mv0) moves = .ok mv ∧
        ∀ q : Coord, q ∈ mv ↔
          q ∈ moves ∨ ∃ i ∈ rows, ∃ j ∈ List.range M,
            q = ((i : Int), (j : Int)) ∧ Legal b p (i : Int) (j : Int) := by
  intro rows
  induction rows with
  | nil =>
    intro _ moves
    exact ⟨moves, by simp [List.foldlM, pure, Except.pure], by simp⟩
  | cons i rows ih =>
    intro hrows moves
    have hi := hrows i (List.mem_cons_self _ _)
    rw [List.foldlM_cons]
    obtain ⟨mv1, h1, hmv1⟩ := avaliableMovesRow_spec b p hi (List.range M)
      (fun j hj => List.mem_range.mp hj) moves
    obtain ⟨mv, h2, hmv⟩ := ih (fun k hk => hrows k (List.mem_cons_of_mem _ hk)) mv1
    refine ⟨mv, by simpa [h1, bind, Except.bind] using h2, ?_⟩
    intro q
    rw [hmv q, hmv1 q]
    constructor
    · rintro ((h | ⟨j, hj, rfl, hleg⟩) | ⟨k, hk, j, hj, rfl, hleg⟩)
      · exact Or.inl h
      · exact Or.inr ⟨i, List.mem_cons_self _ _, j, hj, rfl, hleg⟩
      · exact Or.inr ⟨k, List.mem_cons_of_mem _ hk, j, hj, rfl, hleg⟩
    · rintro (h | ⟨k, hk, j, hj, rfl, hleg⟩)
      · exact Or.inl (Or.inl h)
      · rcases List.mem_cons.mp hk with rfl | hk'
        · exact Or.inl (Or.inr ⟨j, hj, rfl, hleg⟩)
        · exact Or.inr ⟨k, hk', j, hj, rfl, hleg⟩

/-- The call `avaliableMoves(p)` returns normally; it changes `moves_` only, and the new
set holds exactly the legal moves of `p`. -/
theorem avaliableMoves_spec {N M : Nat} (s : OthelloBoard N M) (p : UChar) :
    ∃ mv : List Coord,
      avaliableMoves s p = .ok ({ s with moves_ := mv }, (mv.length : Int)) ∧
      ∀ q : Coord, q ∈ mv ↔ Legal s.board_ p q.1 q.2 := by
  obtain ⟨mv, h, hmv⟩ := avaliableMovesRows_spec s.board_ p (List.range N)
    (fun i hi => List.mem_range.mp hi) []
  refine ⟨mv, ?_, ?_⟩
  · unfold avaliableMoves
    rw [h]
  · intro q
    rw [hmv q]
    constructor
    · rintro (h0 | ⟨i, _, j, _, rfl, hleg⟩)
      · cases h0
      · exact hleg
    · intro hleg
      right
      obtain ⟨qx, qy⟩ := q
      have hob := onBoard_iff.mp (onBoard_of_readCell hleg.1)
      refine ⟨qx.toNat, List.mem_range.mpr (by omega), qy.toNat,
        List.mem_range.mpr (by omega), ?_, ?_⟩
      · simp only [Prod.mk.injEq]
        omega
      · have e1 : ((qx.toNat : Nat) : Int) = qx := Int.toNat_of_nonneg hob.1
        have e2 : ((qy.toNat : Nat) : Int) = qy := Int.toNat_of_nonneg hob.2.2.1
        rw [e1, e2]
        exact hleg

/-! ## The ray loop of `play` -/

/-- Walking back (`dir == -1`) in `play` from distance `t` over non-Empty cells: every
cell down to distance 1 is rewritten to `p`, and the loop stops at the origin. -/
theorem playRay_back {N M : Nat} (p : UChar) {x y dx dy : Int} (hd : IsDir dx dy) :
    ∀ (t fuel : Nat) (b : Grid N M) (isLegal : Bool), t + 1 ≤ fuel →
      (∀ s : Nat, 1 ≤ s → s ≤ t →
        ∃ c, readCell b (x + (s : Int) * dx) (y + (s : Int) * dy) = .ok c ∧ c ≠ 0) →
      ∃ b', playRay p x y dx dy fuel (x + (t : Int) * dx) (y + (t : Int) * dy) (-1) b isLegal
            = .ok (b', if t = 0 then isLegal else true) ∧
        (∀ a c, OnSegment x y dx dy t a c → readCell b' a c = .ok p) ∧
        (∀ a c, ¬ OnSegment x y dx dy t a c → readCell b' a c = readCell b a c) := by
  intro t
  induction t with
  | zero =>
    intro fuel b isLegal hf _
    obtain ⟨f, rfl⟩ : ∃ f, fuel = f + 1 := ⟨fuel - 1, by omega⟩
    refine ⟨b, ?_, ?_, ?_⟩
    · rw [playRay, ray_cond_zero hd]
      simp
    · rintro a c ⟨s, h1, h2, _⟩
      omega
    · intro a c _
      rfl
  | succ t ih =>
    intro fuel b isLegal hf hnz
    obtain ⟨f, rfl⟩ : ∃ f, fuel = f + 1 := ⟨fuel - 1, by omega⟩
    obtain ⟨c0, hc, hc0⟩ := hnz (t + 1) (by omega) le_rfl
    have hob := onBoard_of_readCell hc
    obtain ⟨b1, hw⟩ := writeCell_ok_of_onBoard b p hob
    have hr1 := readCell_writeCell hw
    have hnz1 : ∀ s : Nat, 1 ≤ s → s ≤ t →
        ∃ c, readCell b1 (x + (s : Int) * dx) (y + (s : Int) * dy) = .ok c ∧ c ≠ 0 := by
      intro s h1 h2
      obtain ⟨c, hcs, hcs0⟩ := hnz s h1 (by omega)
      refine ⟨c, ?_, hcs0⟩
      rw [hr1, if_neg, hcs]
      rintro ⟨e1, e2⟩
      have := ray_injective hd x y e1 e2
      omega
    obtain ⟨b', hrun, hon, hoff⟩ := ih f b1 true (by omega) hnz1
    refine ⟨b', ?_, ?_, ?_⟩
    · rw [playRay, ray_cond_pos hd _ _ (by omega : 1 ≤ t + 1), if_pos hob]
      have hself : readCell b1 (x + ((t + 1 : Nat) : Int) * dx)
          (y + ((t + 1 : Nat) : Int) * dy) = .ok p := by
        rw [hr1, if_pos ⟨rfl, rfl⟩]
      simp only [hc, beq_iff_eq, hc0, if_false, if_true, hw, Except.map, hself,
        ray_step_back]
      rw [hrun]
      simp
    · rintro a c ⟨s, h1, h2, rfl, rfl⟩
      by_cases hs : s ≤ t
      · exact hon _ _ ⟨s, h1, hs, rfl, rfl⟩
      · have hst : s = t + 1 := by omega
        subst hst
        rw [hoff, hr1, if_pos ⟨rfl, rfl⟩]
        rintro ⟨s', h1', h2', e1, e2⟩
        have := ray_injective hd x y e1 e2
        omega
    · intro a c hnot
      have h1 : ¬ OnSegment x y dx dy t a c := by
        rintro ⟨s, h1, h2, e1, e2⟩
        exact hnot ⟨s, h1, by omega, e1, e2⟩
      rw [hoff a c h1, hr1, if_neg]
      rintro ⟨e1, e2⟩
      exact hnot ⟨t + 1, by omega, le_rfl, e1, e2⟩

/-- Walking outward (`dir == 1`) in `play` from distance `t`, all nearer cells holding
opposing pieces: the loop ends normally; when the ray is capturing over `k` cells, these
`k` cells are rewritten to `p` and `isLegal` is set; otherwise nothing changes. -/
theorem playRay_out {N M : Nat} (b : Grid N M) (p : UChar) {x y dx dy : Int}
    (hd : IsDir dx dy) (hxy : onBoard N M x y = true) (isLegal : Bool) :
    ∀ (fuel t : Nat), 1 ≤ t → 2 * max N M + 1 ≤ fuel + t →
      (∀ s, 1 ≤ s → s < t → Opp b p x y dx dy s) →
      (∃ k b', CapturingLen b p x y dx dy k ∧
        playRay p x y dx dy fuel (x + (t : Int) * dx) (y + (t : Int) * dy) 1 b isLegal
          = .ok (b', true) ∧
        (∀ a c, OnSegment x y dx dy k a c → readCell b' a c = .ok p) ∧
        (∀ a c, ¬ OnSegment x y dx dy k a c → readCell b' a c = readCell b a c)) ∨
      (¬ Capturing b p x y dx dy ∧
        playRay p x y dx dy fuel (x + (t : Int) * dx) (y + (t : Int) * dy) 1 b isLegal
          = .ok (b, isLegal)) := by
  intro fuel
  induction fuel with
  | zero =>
    intro t ht hf hprev
    exfalso
    have hL := max_pos_of_onBoard hxy
    obtain ⟨c, hc, _, _⟩ := hprev (t - 1) (by omega) (by omega)
    have hb := ray_bound hd hxy (onBoard_of_readCell hc)
    omega
  | succ f ih =>
    intro t ht hf hprev
    rw [playRay, ray_cond_pos hd _ _ ht]
    by_cases hob : onBoard N M (x + (t : Int) * dx) (y + (t : Int) * dy) = true
    · obtain ⟨c, hc⟩ := readCell_ok_of_onBoard b hob
      have hlt := ray_bound hd hxy hob
      rw [if_pos hob]
      simp only [hc]
      by_cases hc0 : c = 0
      · right
        refine ⟨not_capturing_of_stop ht hprev ?_ ?_, by simp [hc0]⟩
        · rw [opp_iff hc]; tauto
        · intro _; rw [own_iff hc]; tauto
      · have hne : ¬ ((1 : Int) = -1) := by decide
        by_cases hcp : c = p
        · obtain ⟨t', rfl⟩ : ∃ t', t = t' + 1 := ⟨t - 1, by omega⟩
          have hown : Own b p x y dx dy (t' + 1) := (own_iff hc).mpr ⟨hc0, hcp⟩
          have hp0 : p ≠ 0 := hcp ▸ hc0
          obtain ⟨b', hback, hon, hoff⟩ := playRay_back p hd t' f b isLegal (by omega)
            (fun s h1 h2 => by
              obtain ⟨c', hc', h0, _⟩ := hprev s h1 (by omega)
              exact ⟨c', hc', h0⟩)
          simp only [beq_iff_eq, hp0, if_false, hcp, if_true, hne, hc, ray_step_back]
          by_cases ht0 : t' = 0
          · right
            subst ht0
            refine ⟨not_capturing_of_stop ht hprev ?_ ?_, ?_⟩
            · intro h; exact opp_not_own h hown
            · intro h; omega
            · rw [hback]
              have : b' = b := grid_ext (fun a c => hoff a c (by
                rintro ⟨s, h1, h2, _⟩
                omega))
              simp [this]
          · left
            refine ⟨t', b', ⟨by omega, fun s h1 h2 => hprev s h1 (by omega), hown⟩, ?_,
              hon, hoff⟩
            rw [hback]
            simp [ht0]
        · have hopp : Opp b p x y dx dy t := (opp_iff hc).mpr ⟨hc0, hcp⟩
          simp only [beq_iff_eq, hc0, if_false, hcp, hne, hc, ray_step_out]
          refine ih (t + 1) (by omega) (by omega) ?_
          intro s h1 h2
          rcases Nat.lt_or_ge s t with h3 | h3
          · exact hprev s h1 h3
          · have : s = t := by omega
            subst this
            exact hopp
    · right
      rw [if_neg hob]
      exact ⟨not_capturing_of_stop ht hprev (not_opp_of_off hob)
        (fun _ => not_own_of_off hob), rfl⟩

theorem playRay_spec {N M : Nat} (b : Grid N M) (p : UChar) {x y dx dy : Int}
    (hd : IsDir dx dy) (hxy : onBoard N M x y = true) (isLegal : Bool) :
    (∃ k b', CapturingLen b p x y dx dy k ∧
      playRay p x y dx dy (rayFuel N M) (x + dx) (y + dy) 1 b isLegal = .ok (b', true) ∧
      (∀ a c, OnSegment x y dx dy k a c → readCell b' a c = .ok p) ∧
      (∀ a c, ¬ OnSegment x y dx dy k a c → readCell b' a c = readCell b a c)) ∨
    (¬ Capturing b p x y dx dy ∧
      playRay p x y dx dy (rayFuel N M) (x + dx) (y + dy) 1 b isLegal = .ok (b, isLegal)) := by
  have h := playRay_out b p hd hxy isLegal (rayFuel N M) 1 le_rfl
    (by unfold rayFuel; omega) (fun s h1 h2 => by omega)
  rw [← ray_start, ← ray_start] at h
  exact h

/-! ## All eight rays of `play` -/

theorem flipped_iff {N M : Nat} (b : Grid N M) (p : UChar) (x y a c : Int) :
    Flipped b p x y a c ↔ FlippedBy b p x y dirs8 a c := by
  constructor
  · rintro ⟨dx, dy, k, hd, hk, hseg⟩
    exact ⟨(dx, dy), (mem_dirs8_iff (dx, dy)).mpr hd, k, hk, hseg⟩
  · rintro ⟨d, hd, k, hk, hseg⟩
    exact ⟨d.1, d.2, k, (mem_dirs8_iff d).mp hd, hk, hseg⟩

theorem playFlips_eq {N M : Nat} (p : UChar) (x y : Int) (b : Grid N M) (isLegal : Bool) :
    playFlips p x y b isLegal =
      dirs8.foldlM (fun (acc : Grid N M × Bool) d =>
        playRay p x y d.1 d.2 (rayFuel N M) (x + d.1) (y + d.2) 1 acc.1 acc.2)
        (b, isLegal) := by
  simp [playFlips, dirSet, dirs8, List.foldlM]
  rfl

/-- Capturing along one ray is insensitive to changes of the grid off that ray. -/
theorem capturingLen_congr {N M : Nat} {b b0 : Grid N M} {p : UChar} {x y dx dy : Int}
    (h : ∀ t : Nat, 1 ≤ t →
      readCell b (x + (t : Int) * dx) (y + (t : Int) * dy) =
        readCell b0 (x + (t : Int) * dx) (y + (t : Int) * dy)) (k : Nat) :
    CapturingLen b p x y dx dy k ↔ CapturingLen b0 p x y dx dy k := by
  unfold CapturingLen Opp Own
  constructor
  · rintro ⟨h1, h2, h3⟩
    refine ⟨h1, fun t ht1 ht2 => ?_, ?_⟩
    · rw [← h t ht1]; exact h2 t ht1 ht2
    · rw [← h (k + 1) (by omega)]; exact h3
  · rintro ⟨h1, h2, h3⟩
    refine ⟨h1, fun t ht1 ht2 => ?_, ?_⟩
    · rw [h t ht1]; exact h2 t ht1 ht2
    · rw [h (k + 1) (by omega)]; exact h3

theorem playDirs_spec {N M : Nat} (b0 : Grid N M) (l0 : Bool) (p : UChar) {x y : Int}
    (hxy : onBoard N M x y = true) :
    ∀ (ds done : List (Int × Int)), (∀ d ∈ done ++ ds, IsDir d.1 d.2) →
      (done ++ ds).Nodup → ∀ (b : Grid N M) (l : Bool), FlipInv b0 l0 p x y done b l →
      ∃ b' l', ds.foldlM (fun (acc : Grid N M × Bool) d =>
          playRay p x y d.1 d.2 (rayFuel N M) (x + d.1) (y + d.2) 1 acc.1 acc.2) (b, l)
          = .ok (b', l') ∧ FlipInv b0 l0 p x y (done ++ ds) b' l' := by
  intro ds
  induction ds with
  | nil =>
    intro done _ _ b l hinv
    exact ⟨b, l, by simp [List.foldlM, pure, Except.pure], by simpa using hinv⟩
  | cons d ds ih =>
    intro done hdir hnd b l hinv
    obtain ⟨hl, hon, hoff⟩ := hinv
    have hd : IsDir d.1 d.2 := hdir d (by simp)
    have hfresh : ∀ e ∈ done, ¬ (d.1 = e.1 ∧ d.2 = e.2) := by
      rintro e he ⟨h1, h2⟩
      have hde : d = e := Prod.ext h1 h2
      subst hde
      have := List.nodup_append.mp hnd
      exact (List.disjoint_left.mp this.2.2 he) (List.mem_cons_self _ _)
    have hsame : ∀ t : Nat, 1 ≤ t →
        readCell b (x + (t : Int) * d.1) (y + (t : Int) * d.2) =
          readCell b0 (x + (t : Int) * d.1) (y + (t : Int) * d.2) := by
      intro t ht
      apply hoff
      rintro ⟨e, he, k, _, s, hs1, _, e1, e2⟩
      exact rays_disjoint hd (hdir e (by simp [he])) (hfresh e he) x y ht hs1 e1 e2
    have hcongr := capturingLen_congr (p := p) hsame
    have hdir1 : ∀ e ∈ (done ++ [d]) ++ ds, IsDir e.1 e.2 := by
      intro e he
      exact hdir e (by simpa using he)
    have hnd1 : ((done ++ [d]) ++ ds).Nodup := by simpa using hnd
    rw [List.foldlM_cons]
    rcases playRay_spec b p hd hxy l with ⟨k, b', hk, hrun, hon1, hoff1⟩ | ⟨hno, hrun⟩
    · have hk0 := (hcongr k).mp hk
      have hinv1 : FlipInv b0 l0 p x y (done ++ [d]) b' true := by
        refine ⟨?_, ?_, ?_⟩
        · simp only [true_iff]
          exact Or.inr ⟨d, by simp, k, hk0⟩
        · rintro a c ⟨e, he, k', hk', hseg⟩
          by_cases hs : OnSegment x y d.1 d.2 k a c
          · exact hon1 a c hs
          · rw [hoff1 a c hs]
            rcases List.mem_append.mp he with he1 | he1
            · exact hon a c ⟨e, he1, k', hk', hseg⟩
            · have hed : e = d := by simpa using he1
              subst hed
              have := capturingLen_unique hk' hk0
              subst this
              exact (hs hseg).elim
        · intro a c hnot
          have hs : ¬ OnSegment x y d.1 d.2 k a c := fun hseg =>
            hnot ⟨d, by simp, k, hk0, hseg⟩
          rw [hoff1 a c hs]
          apply hoff
          rintro ⟨e, he, k', hk', hseg⟩
          exact hnot ⟨e, by simp [he], k', hk', hseg⟩
      obtain ⟨b2, l2, hrun2, hinv2⟩ := ih (done ++ [d]) hdir1 hnd1 b' true hinv1
      refine ⟨b2, l2, ?_, by simpa using hinv2⟩
      simp only [hrun, bind, Except.bind]
      exact hrun2
    · have hno0 : ¬ Capturing b0 p x y d.1 d.2 := by
        rintro ⟨k, hk⟩
        exact hno ⟨k, (hcongr k).mpr hk⟩
      have hinv1 : FlipInv b0 l0 p x y (done ++ [d]) b l := by
        refine ⟨?_, ?_, ?_⟩
        · rw [hl]
          constructor
          · rintro (h | ⟨e, he, hcap⟩)
            · exact Or.inl h
            · exact Or.inr ⟨e, by simp [he], hcap⟩
          · rintro (h | ⟨e, he, hcap⟩)
            · exact Or.inl h
            · rcases List.mem_append.mp he with he1 | he1
              · exact Or.inr ⟨e, he1, hcap⟩
              · have hed : e = d := by simpa using he1
                subst hed
                exact (hno0 hcap).elim
        · rintro a c ⟨e, he, k', hk', hseg⟩
          rcases List.mem_append.mp he with he1 | he1
          · exact hon a c ⟨e, he1, k', hk', hseg⟩
          · have hed : e = d := by simpa using he1
            subst hed
            exact (hno0 ⟨k', hk'⟩).elim
        · intro a c hnot
          apply hoff
          rintro ⟨e, he, k', hk', hseg⟩
          exact hnot ⟨e, by simp [he], k', hk', hseg⟩
      obtain ⟨b2, l2, hrun2, hinv2⟩ := ih (done ++ [d]) hdir1 hnd1 b l hinv1
      refine ⟨b2, l2, ?_, by simpa using hinv2⟩
      simp only [hrun, bind, Except.bind]
      exact hrun2

/-- The scan-and-flip of `play` from an in-grid square: it ends normally, `isLegal` tells
whether some ray is capturing, the cells passed over by the capturing rays hold `p`, and no
other cell is altered. -/
theorem playFlips_spec {N M : Nat} (b0 : Grid N M) (p : UChar) {x y : Int}
    (hxy : onBoard N M x y = true) :
    ∃ b' l', playFlips p x y b0 false = .ok (b', l') ∧
      (l' = true ↔ ∃ dx dy, IsDir dx dy ∧ Capturing b0 p x y dx dy) ∧
      (∀ a c, Flipped b0 p x y a c → readCell b' a c = .ok p) ∧
      (∀ a c, ¬ Flipped b0 p x y a c → readCell b' a c = readCell b0 a c) := by
  have hinv0 : FlipInv b0 false p x y [] b0 false := by
    refine ⟨by simp, ?_, fun _ _ _ => rfl⟩
    rintro a c ⟨e, he, _⟩
    cases he
  obtain ⟨b', l', hrun, hl, hon, hoff⟩ := playDirs_spec b0 false p hxy dirs8 []
    (fun d hd => (mem_dirs8_iff d).mp (by simpa using hd)) (by decide) b0 false hinv0
  rw [List.nil_append] at hl hon hoff
  refine ⟨b', l', by rw [playFlips_eq]; exact hrun, ?_, ?_, ?_⟩
  · rw [hl]
    constructor
    · rintro (h | ⟨d, hd, hcap⟩)
      · cases h
      · exact ⟨d.1, d.2, (mem_dirs8_iff d).mp hd, hcap⟩
    · rintro ⟨dx, dy, hd, hcap⟩
      exact Or.inr ⟨(dx, dy), (mem_dirs8_iff (dx, dy)).mpr hd, hcap⟩
  · intro a c h
    exact hon a c ((flipped_iff b0 p x y a c).mp h)
  · intro a c h
    exact hoff a c (fun h1 => h ((flipped_iff b0 p x y a c).mpr h1))

/-! ## The call `play` -/

theorem origin_not_onSegment {dx dy : Int} (hd : IsDir dx dy) (x y : Int) (k : Nat) :
    ¬ OnSegment x y dx dy k x y := by
  rintro ⟨t, h1, _, e1, e2⟩
  have e1' : x + ((0 : Nat) : Int) * dx = x + (t : Int) * dx := by simpa using e1
  have e2' : y + ((0 : Nat) : Int) * dy = y + (t : Int) * dy := by simpa using e2
  have := ray_injective hd x y e1' e2'
  omega

theorem origin_not_flipped {N M : Nat} (b : Grid N M) (p : UChar) (x y : Int) :
    ¬ Flipped b p x y x y := by
  rintro ⟨dx, dy, k, hd, _, hseg⟩
  exact origin_not_onSegment hd x y k hseg

/-- The call `play(p, x, y)` always returns.  It returns true exactly under `PlayOk`, and
then only `board_` and `lastPlayer_` change; otherwise it returns false in the same state. -/
theorem play_spec {N M : Nat} (s : OthelloBoard N M) (p : UChar) (x y : Int) :
    (PlayOk s p x y ∧ ∃ b1, play s p x y =
        .ok ({ board_ := b1, moves_ := s.moves_, lastPlayer_ := p }, true) ∧
        PlayResult s p x y b1) ∨
    (¬ PlayOk s p x y ∧ play s p x y = .ok (s, false)) := by
  unfold play
  by_cases hxy : onBoard N M x y = true
  · obtain ⟨c, hc⟩ := readCell_ok_of_onBoard s.board_ hxy
    simp only [hxy, Bool.not_true, Bool.false_eq_true, if_false, hc]
    by_cases hc0 : c = 0
    · subst hc0
      simp only [bne_self_eq_false, Bool.false_eq_true, if_false]
      by_cases hmem : (x, y) ∈ s.moves_
      · have hcount : setCount (x, y) s.moves_ = true := (setCount_iff _ _).mpr hmem
        simp only [hcount, Bool.not_true, Bool.false_eq_true, if_false]
        obtain ⟨b', l', hrun, hl, hon, hoff⟩ := playFlips_spec s.board_ p hxy
        rw [hrun]
        by_cases hcap : ∃ dx dy, IsDir dx dy ∧ Capturing s.board_ p x y dx dy
        · left
          have hl1 : l' = true := hl.mpr hcap
          obtain ⟨b1, hw⟩ := writeCell_ok_of_onBoard b' p hxy
          have hr1 := readCell_writeCell hw
          refine ⟨⟨hmem, hc, hcap⟩, b1, by simp [hl1, hw], ?_, ?_, ?_⟩
          · rw [hr1, if_pos ⟨rfl, rfl⟩]
          · intro a c hf
            rw [hr1]
            split
            · rfl
            · exact hon a c hf
          · intro a c hf hne
            rw [hr1, if_neg hne]
            exact hoff a c hf
        · right
          have hl1 : l' = false := by
            cases l'
            · rfl
            · exact (hcap (hl.mp rfl)).elim
          have hb : b' = s.board_ := grid_ext (fun a c => hoff a c (by
            rintro ⟨dx, dy, k, hd, hk, _⟩
            exact hcap ⟨dx, dy, hd, k, hk⟩))
          refine ⟨fun h => hcap h.2.2, ?_⟩
          simp [hl1, hb]
      · right
        have hcount : setCount (x, y) s.moves_ = false := by
          rw [← Bool.not_eq_true, setCount_iff]
          exact hmem
        exact ⟨fun h => hmem h.1, by simp [hcount]⟩
    · right
      refine ⟨?_, by simp [hc0]⟩
      rintro ⟨_, h0, _⟩
      rw [hc] at h0
      exact hc0 (Except.ok.inj h0)
  · right
    refine ⟨?_, by simp [hxy]⟩
    rintro ⟨_, h0, _⟩
    exact hxy (onBoard_of_readCell h0)

/-! ## Legal moves and captures -/

/-- C1: for every board and every player `p`, `avaliableMoves(p)` returns, and the stored
legal-move set is then exactly the set of in-grid cells `(i, j)` that are Empty and have
at least one capturing ray among the 8 compass directions, a ray being capturing when it
passes over one or more consecutive in-grid cells holding pieces other than `p` and then
reaches an in-grid cell holding a piece of `p`.  A ray whose first cell is off the board,
Empty, or holds `p` is not capturing.  (This holds for every `p`, so also for `p ≠ 0`.) -/
theorem avaliableMoves_stores_exactly_the_legal_cells {N M : Nat} (s : OthelloBoard N M)
    (p : UChar) :
    ∃ s1 n, avaliableMoves s p = .ok (s1, n) ∧ s1.board_ = s.board_ ∧
      (∀ i j : Int, (i, j) ∈ s1.moves_ ↔
        (onBoard N M i j = true ∧ readCell s.board_ i j = .ok 0 ∧
          ∃ dx dy, IsDir dx dy ∧ Capturing s.board_ p i j dx dy)) ∧
      (∀ i j dx dy : Int,
        (onBoard N M (i + dx) (j + dy) = false ∨ readCell s.board_ (i + dx) (j + dy) = .ok 0 ∨
          readCell s.board_ (i + dx) (j + dy) = .ok p) →
        ¬ Capturing s.board_ p i j dx dy) := by
  obtain ⟨mv, hrun, hmv⟩ := avaliableMoves_spec s p
  refine ⟨_, _, hrun, rfl, ?_, ?_⟩
  · intro i j
    rw [hmv (i, j)]
    constructor
    · rintro ⟨h0, hcap⟩
      exact ⟨onBoard_of_readCell h0, h0, hcap⟩
    · rintro ⟨_, h0, hcap⟩
      exact ⟨h0, hcap⟩
  · rintro i j dx dy hfirst ⟨k, hk1, hopp, _⟩
    obtain ⟨c, hc, hc0, hcp⟩ := hopp 1 le_rfl hk1
    simp only [Nat.cast_one, one_mul] at hc
    rcases hfirst with h | h | h
    · rw [onBoard_of_readCell hc] at h
      cases h
    · rw [hc] at h
      exact hc0 (Except.ok.inj h)
    · rw [hc] at h
      exact hcp (Except.ok.inj h)

/-- C2: legality agrees with capture.  For every board, player `p` and cell `(i, j)`:
`avaliableMoves(p)` returns, and in the state it leaves, `(i, j)` is in the legal-move set
if and only if `play(p, i, j)` returns true.  (This holds for every `p`, so also for
`p ≠ 0`.) -/
theorem legal_move_iff_play_returns_true {N M : Nat} (s : OthelloBoard N M) (p : UChar)
    (i j : Int) :
    ∃ s1 n, avaliableMoves s p = .ok (s1, n) ∧
      ((i, j) ∈ s1.moves_ ↔ ∃ s2, play s1 p i j = .ok (s2, true)) := by
  obtain ⟨mv, hrun, hmv⟩ := avaliableMoves_spec s p
  refine ⟨_, _, hrun, ?_⟩
  constructor
  · intro hmem
    have hleg : Legal s.board_ p i j := (hmv (i, j)).mp hmem
    rcases play_spec { s with moves_ := mv } p i j with ⟨_, b1, h, _⟩ | ⟨hno, _⟩
    · exact ⟨_, h⟩
    · exact (hno ⟨hmem, hleg⟩).elim
  · rintro ⟨s2, h2⟩
    rcases play_spec { s with moves_ := mv } p i j with ⟨hok, _⟩ | ⟨_, h⟩
    · exact hok.1
    · rw [h] at h2
      cases h2

/-- C3: capture atomicity.  For every state, player and coordinates `(x, y)`, if
`play(player, x, y)` returns false then the state after the call is the state before it:
the grid, the stored legal-move set and the last-player marker are all unchanged. -/
theorem play_false_changes_nothing {N M : Nat} (s s1 : OthelloBoard N M) (player : UChar)
    (x y : Int) (h : play s player x y = .ok (s1, false)) :
    s1 = s ∧ s1.board_ = s.board_ ∧ s1.moves_ = s.moves_ ∧ s1.lastPlayer_ = s.lastPlayer_ := by
  rcases play_spec s player x y with ⟨_, b1, h1, _⟩ | ⟨_, h1⟩
  · rw [h1] at h
    cases h
  · rw [h1] at h
    cases h
    exact ⟨rfl, rfl, rfl, rfl⟩

/-- Witness for C3 -/
theorem play_false_changes_nothing_witness :
    play startState 2 2 3 = .ok (startState, false) ∧
      startState = startState ∧ startState.board_ = startState.board_ ∧
      startState.moves_ = startState.moves_ ∧
      startState.lastPlayer_ = startState.lastPlayer_ :=
  ⟨rfl, play_false_changes_nothing startState startState 2 2 3 rfl⟩

/-- C4: for every state and every call `play(player, x, y)`, whatever the stored set was
computed for, the call returns, and it returns true if and only if `(x, y)` is within the
grid, the cell `(x, y)` is Empty, `(x, y)` is a member of the stored legal-move set, and at
least one of the 8 rays from `(x, y)` is capturing for `player`. -/
theorem play_returns_true_iff {N M : Nat} (s : OthelloBoard N M) (player : UChar)
    (x y : Int) :
    ∃ s1 r, play s player x y = .ok (s1, r) ∧
      (r = true ↔
        (onBoard N M x y = true ∧ readCell s.board_ x y = .ok 0 ∧
          (x, y) ∈ getValidPlays s ∧
          ∃ dx dy, IsDir dx dy ∧ Capturing s.board_ player x y dx dy)) := by
  rcases play_spec s player x y with ⟨hok, b1, h1, _⟩ | ⟨hno, h1⟩
  · refine ⟨_, _, h1, ?_⟩
    simp only [true_iff]
    exact ⟨onBoard_of_readCell hok.2.1, hok.2.1, hok.1, hok.2.2⟩
  · refine ⟨_, _, h1, ?_⟩
    simp only [Bool.false_eq_true, false_iff]
    rintro ⟨_, h0, hmem, hcap⟩
    exact hno ⟨hmem, h0, hcap⟩

/-- C5: for every call `play(player, x, y)` that returns true, the resulting grid is the
original grid in which (a) the cell `(x, y)` holds `player`, (b) on every capturing ray
from `(x, y)` every cell from the one adjacent to `(x, y)` up to but excluding the
terminating `player` cell holds `player`, and (c) every other cell is unchanged; the
last-player marker equals `player` and the stored legal-move set is unchanged. -/
theorem play_true_places_and_flips {N M : Nat} (s s1 : OthelloBoard N M) (player : UChar)
    (x y : Int) (h : play s player x y = .ok (s1, true)) :
    readCell s1.board_ x y = .ok player ∧
    (∀ dx dy k, IsDir dx dy → CapturingLen s.board_ player x y dx dy k →
      ∀ t : Nat, 1 ≤ t → t ≤ k →
        readCell s1.board_ (x + (t : Int) * dx) (y + (t : Int) * dy) = .ok player) ∧
    (∀ a c : Int, ¬ (a = x ∧ c = y) → ¬ Flipped s.board_ player x y a c →
      readCell s1.board_ a c = readCell s.board_ a c) ∧
    s1.lastPlayer_ = player ∧ s1.moves_ = s.moves_ := by
  rcases play_spec s player x y with ⟨_, b1, h1, hxy, hon, hoff⟩ | ⟨_, h1⟩
  · rw [h1] at h
    cases h
    refine ⟨hxy, ?_, ?_, rfl, rfl⟩
    · intro dx dy k hd hk t ht1 ht2
      exact hon _ _ ⟨dx, dy, k, hd, hk, t, ht1, ht2, rfl, rfl⟩
    · intro a c hne hnf
      exact hoff a c hnf hne
  · rw [h1] at h
    cases h

theorem startGrid_capturing_down : CapturingLen startGrid 1 2 3 1 0 1 := by
  refine ⟨le_rfl, ?_, ⟨1, by rfl, by decide, rfl⟩⟩
  intro t h1 h2
  have ht : t = 1 := by omega
  subst ht
  exact ⟨2, by rfl, by decide, by decide⟩

/-- Witness for C5 -/
theorem play_true_places_and_flips_witness :
    ∃ s1 : OthelloBoard 8 8, play startState 1 2 3 = .ok (s1, true) ∧
      readCell s1.board_ 2 3 = .ok 1 ∧ readCell s1.board_ 3 3 = .ok 1 ∧
      s1.lastPlayer_ = 1 ∧ s1.moves_ = startState.moves_ := by
  refine ⟨_, rfl, ?_⟩
  have h := play_true_places_and_flips startState _ 1 2 3 rfl
  exact ⟨h.1, h.2.1 1 0 1 (by decide) startGrid_capturing_down 1 le_rfl le_rfl,
    h.2.2.2.1, h.2.2.2.2⟩

/-! ## The winner -/

theorem winnerTally_row {N M : Nat} (b : Grid N M) (r : Fin N) :
    ∀ (cs : List (Fin M)) (cnt : UChar → Int),
      (cs.map Fin.val).foldlM (fun (cnt1 : UChar → Int) (j : Nat) =>
        winnerTallyCell b cnt1 r.val j) cnt
      = .ok (fun k => cnt k + ((cs.countP (fun c => decide (b r c = k)) : Nat) : Int)) := by
  intro cs
  induction cs with
  | nil =>
    intro cnt
    simp [List.foldlM, pure, Except.pure]
  | cons c cs ih =>
    intro cnt
    rw [List.map_cons, List.foldlM_cons, winnerTallyCell, readCell_fin]
    simp only [bind, Except.bind]
    rw [ih]
    congr 1
    funext k
    rw [List.countP_cons]
    by_cases hk : k = b r c
    · subst hk
      simp
      ring
    · have hk' : ¬ (b r c = k) := fun h => hk h.symm
      simp [hk, hk']

theorem winnerTally_rows {N M : Nat} (b : Grid N M) :
    ∀ (rs : List (Fin N)) (cnt : UChar → Int),
      (rs.map Fin.val).foldlM (fun (cnt0 : UChar → Int) (i : Nat) =>
        (List.range M).foldlM (fun (cnt1 : UChar → Int) (j : Nat) =>
          winnerTallyCell b cnt1 i j) cnt0) cnt
      = .ok (fun k => cnt k + (((rs.map (rowCount b k)).sum : Nat) : Int)) := by
  intro rs
  induction rs with
  | nil =>
    intro cnt
    simp [List.foldlM, pure, Except.pure]
  | cons r rs ih =>
    intro cnt
    rw [List.map_cons, List.foldlM_cons, ← List.map_coe_finRange M, winnerTally_row]
    simp only [bind, Except.bind]
    rw [List.map_coe_finRange M, ih]
    congr 1
    funext k
    simp only [List.map_cons, List.sum_cons, rowCount]
    push_cast
    ring

/-- The tally of `winner` ends normally with the cell count of every occupant value. -/
theorem winnerTally_eq {N M : Nat} (b : Grid N M) :
    winnerTally b = .ok (fun k => ((cellCount b k : Nat) : Int)) := by
  unfold winnerTally
  rw [← List.map_coe_finRange N, winnerTally_rows]
  congr 1
  funext k
  simp [cellCount]

theorem mem_winnerIds (i : Nat) : i ∈ winnerIds ↔ 1 ≤ i ∧ i ≤ 255 := by
  simp only [winnerIds, List.mem_map, List.mem_range]
  constructor
  · rintro ⟨a, ha, rfl⟩
    omega
  · rintro ⟨h1, h2⟩
    exact ⟨i - 1, by omega, by omega⟩

theorem winnerIds_sorted : winnerIds.Pairwise (fun a b => a < b) :=
  List.Pairwise.map _ (fun _ _ h => Nat.succ_lt_succ h) (List.pairwise_lt_range 255)

theorem ofNat_val_uchar (v : UChar) : (Fin.ofNat v.val : UChar) = v := by
  apply Fin.ext
  have := v.isLt
  simp [Fin.ofNat]

theorem val_ofNat_uchar {i : Nat} (h : i ≤ 255) : (Fin.ofNat i : UChar).val = i := by
  simp [Fin.ofNat]
  omega

theorem winnerScan_cons (cnt : UChar → Int) (i : Nat) (l : List Nat) (w0 : UChar)
    (wc0 : Int) :
    winnerScan cnt (i :: l) w0 wc0 =
      if cnt (Fin.ofNat i) > wc0 then winnerScan cnt l (Fin.ofNat i) (cnt (Fin.ofNat i))
      else winnerScan cnt l w0 wc0 := by
  unfold winnerScan
  rw [List.foldl_cons]
  split <;> rfl

/-- The selection loop keeps the first identifier of the list whose count is the largest
count above the initial one. -/
theorem winnerScan_spec (cnt : UChar → Int) :
    ∀ (l : List Nat) (w0 : UChar) (wc0 : Int),
      wc0 ≤ (winnerScan cnt l w0 wc0).2 ∧
      (∀ i ∈ l, cnt (Fin.ofNat i) ≤ (winnerScan cnt l w0 wc0).2) ∧
      (winnerScan cnt l w0 wc0 = (w0, wc0) ∨
        ∃ l1 i l2, l = l1 ++ i :: l2 ∧ (winnerScan cnt l w0 wc0).1 = Fin.ofNat i ∧
          (winnerScan cnt l w0 wc0).2 = cnt (Fin.ofNat i) ∧
          wc0 < (winnerScan cnt l w0 wc0).2 ∧
          ∀ i' ∈ l1, cnt (Fin.ofNat i') < (winnerScan cnt l w0 wc0).2) := by
  intro l
  induction l with
  | nil =>
    intro w0 wc0
    simp [winnerScan]
  | cons i l ih =>
    intro w0 wc0
    rw [winnerScan_cons]
    by_cases hgt : cnt (Fin.ofNat i) > wc0
    · rw [if_pos hgt]
      obtain ⟨h1, h2, h3⟩ := ih (Fin.ofNat i) (cnt (Fin.ofNat i))
      refine ⟨by omega, ?_, Or.inr ?_⟩
      · intro k hk
        rcases List.mem_cons.mp hk with rfl | hk'
        · exact h1
        · exact h2 k hk'
      · rcases h3 with h3 | ⟨l1, k, l2, e, hw, hc, hlt, hall⟩
        · refine ⟨[], i, l, rfl, by rw [h3], by rw [h3], by rw [h3]; exact hgt, ?_⟩
          intro k hk
          cases hk
        · refine ⟨i :: l1, k, l2, by rw [e]; rfl, hw, hc, by omega, ?_⟩
          intro k' hk'
          rcases List.mem_cons.mp hk' with rfl | hk''
          · exact hlt
          · exact hall k' hk''
    · rw [if_neg hgt]
      obtain ⟨h1, h2, h3⟩ := ih w0 wc0
      refine ⟨h1, ?_, ?_⟩
      · intro k hk
        rcases List.mem_cons.mp hk with rfl | hk'
        · omega
        · exact h2 k hk'
      · rcases h3 with h3 | ⟨l1, k, l2, e, hw, hc, hlt, hall⟩
        · exact Or.inl h3
        · refine Or.inr ⟨i :: l1, k, l2, by rw [e]; rfl, hw, hc, hlt, ?_⟩
          intro k' hk'
          rcases List.mem_cons.mp hk' with rfl | hk''
          · omega
          · exact hall k' hk''

/-- The selection loop over `1, …, 255`, started at `(0, 0)`. -/
theorem winnerScan_ids (cnt : UChar → Int) :
    ((winnerScan cnt winnerIds 0 0).1 = 0 ∧ ∀ v : UChar, v ≠ 0 → cnt v ≤ 0) ∨
    ((winnerScan cnt winnerIds 0 0).1 ≠ 0 ∧ 0 < cnt (winnerScan cnt winnerIds 0 0).1 ∧
      (∀ v : UChar, v ≠ 0 → cnt v ≤ cnt (winnerScan cnt winnerIds 0 0).1) ∧
      (∀ v : UChar, v ≠ 0 → cnt v = cnt (winnerScan cnt winnerIds 0 0).1 →
        (winnerScan cnt winnerIds 0 0).1 ≤ v)) := by
  obtain ⟨_, h2, h3⟩ := winnerScan_spec cnt winnerIds 0 0
  have hmem : ∀ v : UChar, v ≠ 0 → v.val ∈ winnerIds := by
    intro v hv
    rw [mem_winnerIds]
    have := v.isLt
    have : v.val ≠ 0 := fun h => hv (Fin.ext h)
    omega
  have hsorted := winnerIds_sorted
  have hbound : ∀ i ∈ winnerIds, 1 ≤ i ∧ i ≤ 255 := fun i hi => (mem_winnerIds i).mp hi
  generalize winnerScan cnt winnerIds 0 0 = r at h2 h3 ⊢
  generalize winnerIds = ids at h2 h3 hmem hsorted hbound
  rcases h3 with h3 | ⟨l1, i, l2, e, hw, hc, hlt, hall⟩
  · left
    subst h3
    refine ⟨rfl, ?_⟩
    intro v hv
    have := h2 v.val (hmem v hv)
    rw [ofNat_val_uchar] at this
    exact this
  · right
    have hi := hbound i (by rw [e]; simp)
    have hval : r.1.val = i := by rw [hw]; exact val_ofNat_uchar hi.2
    rw [← hw] at hc
    rw [hc] at h2 hall hlt
    have hwne : r.1 ≠ 0 := by
      intro h0
      rw [h0] at hval
      have : ((0 : UChar).val) = 0 := rfl
      omega
    refine ⟨hwne, hlt, ?_, ?_⟩
    · intro v hv
      have := h2 v.val (hmem v hv)
      rw [ofNat_val_uchar] at this
      exact this
    · intro v hv heq
      by_contra hlt'
      have hvr : v < r.1 := not_le.mp hlt'
      have hv1 : v.val ∈ l1 := by
        have hvm := hmem v hv
        rw [e] at hvm
        rcases List.mem_append.mp hvm with h | h
        · exact h
        · rcases List.mem_cons.mp h with h | h
          · exfalso
            rw [hw, ← h, ofNat_val_uchar] at hvr
            exact lt_irrefl _ hvr
          · exfalso
            rw [e] at hsorted
            have h5 := (List.pairwise_cons.mp (List.pairwise_append.mp hsorted).2.1).1 v.val h
            have h6 : v.val < r.1.val := Fin.lt_def.mp hvr
            omega
      have := hall v.val hv1
      rw [ofNat_val_uchar] at this
      omega

/-- The call `winner()` returns normally: 0 on a grid without pieces, and otherwise the
lowest-numbered identifier among those with the highest cell count. -/
theorem winner_spec {N M : Nat} (s : OthelloBoard N M) :
    ∃ w, winner s = .ok w ∧
      ((w = 0 ∧ ∀ v : UChar, v ≠ 0 → cellCount s.board_ v = 0) ∨
       (w ≠ 0 ∧ 0 < cellCount s.board_ w ∧
        (∀ v : UChar, v ≠ 0 → cellCount s.board_ v ≤ cellCount s.board_ w) ∧
        (∀ v : UChar, v ≠ 0 → cellCount s.board_ v = cellCount s.board_ w → w ≤ v))) := by
  refine ⟨_, by unfold winner; rw [winnerTally_eq], ?_⟩
  have h := winnerScan_ids (fun k => ((cellCount s.board_ k : Nat) : Int))
  generalize (winnerScan (fun k => ((cellCount s.board_ k : Nat) : Int)) winnerIds 0 0).1 = w
    at h ⊢
  rcases h with ⟨h0, hall⟩ | ⟨h0, hpos, hmax, hmin⟩
  · left
    refine ⟨h0, fun v hv => ?_⟩
    have := hall v hv
    omega
  · right
    refine ⟨h0, by omega, fun v hv => ?_, fun v hv heq => ?_⟩
    · have := hmax v hv
      omega
    · exact hmin v hv (by rw [heq])

theorem cellCount_pos {N M : Nat} (b : Grid N M) (r : Fin N) (c : Fin M) :
    0 < cellCount b (b r c) := by
  unfold cellCount
  have h1 : 0 < rowCount b (b r c) r := by
    unfold rowCount
    rw [List.countP_pos_iff]
    exact ⟨c, List.mem_finRange c, by simp⟩
  have h2 : rowCount b (b r c) r ≤ ((List.finRange N).map (rowCount b (b r c))).sum :=
    List.single_le_sum (fun _ _ => Nat.zero_le _) _
      (List.mem_map_of_mem _ (List.mem_finRange r))
  omega

theorem cellCount_eq_zero_iff {N M : Nat} (b : Grid N M) (v : UChar) :
    cellCount b v = 0 ↔ ∀ r c, b r c ≠ v := by
  constructor
  · intro h r c hv
    have := cellCount_pos b r c
    rw [hv] at this
    omega
  · intro h
    unfold cellCount
    apply List.sum_eq_zero
    intro n hn
    obtain ⟨r, _, rfl⟩ := List.mem_map.mp hn
    unfold rowCount
    rw [List.countP_eq_zero]
    intro c _
    simpa using h r c

theorem winner_of_tie_one_two {N M : Nat} (s : OthelloBoard N M)
    (hpos : 0 < cellCount s.board_ 1)
    (htie : cellCount s.board_ 1 = cellCount s.board_ 2)
    (hrest : ∀ v : UChar, v ≠ 0 → v ≠ 1 → v ≠ 2 → cellCount s.board_ v = 0) :
    winner s = .ok 1 := by
  obtain ⟨w, hw, h | ⟨hw0, hwpos, hmax, hmin⟩⟩ := winner_spec s
  · have := h.2 1 (by decide)
    omega
  · rw [hw]
    congr 1
    by_cases h1 : w = 1
    · exact h1
    · by_cases h2 : w = 2
      · subst h2
        have := hmin 1 (by decide) htie
        exact absurd this (by decide)
      · have := hrest w hw0 h1 h2
        omega

/-- C6: for every grid holding at least one piece, `winner()` returns an identifier in
`1..255` whose cell count is highest, and among the identifiers sharing the highest count
the lowest-numbered one; a board with equal counts of players 1 and 2 and no other
identifiers reports player 1; and any board (of any size, with any stored set and marker)
with the same per-identifier cell counts has the same winner. -/
theorem winner_lowest_identifier_of_highest_count {N M : Nat} (s : OthelloBoard N M)
    (hpiece : ∃ r c, s.board_ r c ≠ 0) :
    ∃ w, winner s = .ok w ∧ 1 ≤ w.val ∧ w.val ≤ 255 ∧
      (∀ v : UChar, v ≠ 0 → cellCount s.board_ v ≤ cellCount s.board_ w) ∧
      (∀ v : UChar, v ≠ 0 → cellCount s.board_ v = cellCount s.board_ w → w ≤ v) ∧
      ((cellCount s.board_ 1 = cellCount s.board_ 2 ∧
          ∀ v : UChar, v ≠ 0 → v ≠ 1 → v ≠ 2 → cellCount s.board_ v = 0) → w = 1) ∧
      (∀ (N2 M2 : Nat) (s2 : OthelloBoard N2 M2),
        (∀ v : UChar, v ≠ 0 → cellCount s2.board_ v = cellCount s.board_ v) →
        winner s2 = .ok w) := by
  obtain ⟨r, c, hrc⟩ := hpiece
  have hsome := cellCount_pos s.board_ r c
  obtain ⟨w, hw, h | ⟨hw0, hwpos, hmax, hmin⟩⟩ := winner_spec s
  · have := h.2 _ hrc
    omega
  · refine ⟨w, hw, ?_, ?_, hmax, hmin, ?_, ?_⟩
    · have : w.val ≠ 0 := fun h => hw0 (Fin.ext h)
      omega
    · have := w.isLt
      omega
    · rintro ⟨htie, hrest⟩
      have hpos : 0 < cellCount s.board_ 1 := by
        by_cases h1 : s.board_ r c = 1
        · rw [← h1]; exact hsome
        · by_cases h2 : s.board_ r c = 2
          · rw [htie, ← h2]; exact hsome
          · have := hrest _ hrc h1 h2
            omega
      have := winner_of_tie_one_two s hpos htie hrest
      rw [hw] at this
      exact Except.ok.inj this
    · intro N2 M2 s2 hsame
      obtain ⟨w2, hw2, h | ⟨hw20, hw2pos, hmax2, hmin2⟩⟩ := winner_spec s2
      · have := h.2 w hw0
        rw [hsame w hw0] at this
        omega
      · rw [hw2]
        congr 1
        have h1 := hmax w2 hw20
        have h2 := hmax2 w hw0
        rw [hsame w hw0, hsame w2 hw20] at h2
        have h3 := hmin w2 hw20 (by omega)
        have h4 := hmin2 w hw0 (by rw [hsame w hw0, hsame w2 hw20]; omega)
        exact le_antisymm h4 h3

theorem startGrid_count_rest (v : UChar) (h1 : v ≠ 1) (h2 : v ≠ 2) (h0 : v ≠ 0) :
    cellCount startGrid v = 0 := by
  rw [cellCount_eq_zero_iff]
  intro r c
  unfold startGrid
  split
  · exact fun h => h2 h.symm
  · split
    · exact fun h => h1 h.symm
    · exact fun h => h0 h.symm

/-- Witness for C6 -/
theorem winner_lowest_identifier_of_highest_count_witness :
    (∃ r c, startState.board_ r c ≠ 0) ∧ cellCount startState.board_ 1 = 2 ∧
      cellCount startState.board_ 2 = 2 ∧ winner startState = .ok 1 := by
  have hp : ∃ r c, startState.board_ r c ≠ 0 := ⟨3, 3, by decide⟩
  obtain ⟨w, hw, _, _, _, _, htie, _⟩ :=
    winner_lowest_identifier_of_highest_count startState hp
  refine ⟨hp, by decide, by decide, ?_⟩
  rw [hw, htie ⟨by decide, fun v h0 h1 h2 => startGrid_count_rest v h1 h2 h0⟩]

/-- C7 (as stated, refuted): the starting position is perfectly tied, players 1 and 2
share the highest piece count 2, and `winner()` returns 1, not 0. -/
theorem winner_tie_not_zero :
    cellCount startState.board_ 1 = cellCount startState.board_ 2 ∧
      (∀ v : UChar, v ≠ 0 → cellCount startState.board_ v ≤ cellCount startState.board_ 1) ∧
      winner startState = .ok 1 ∧ winner startState ≠ .ok 0 := by
  have hrest : ∀ v : UChar, v ≠ 0 → v ≠ 1 → v ≠ 2 → cellCount startState.board_ v = 0 :=
    fun v h0 h1 h2 => startGrid_count_rest v h1 h2 h0
  have hwin : winner startState = .ok 1 :=
    winner_of_tie_one_two startState (by decide) (by decide) hrest
  refine ⟨by decide, ?_, hwin, ?_⟩
  · intro v h0
    by_cases h1 : v = 1
    · rw [h1]
    · by_cases h2 : v = 2
      · rw [h2]; decide
      · rw [hrest v h0 h1 h2]; exact Nat.zero_le _
  · rw [hwin]
    intro h
    exact absurd (Except.ok.inj h) (by decide)

/-- C7 (amended): `winner()` returns 0 if and only if the board is empty (no cell holds a
piece); on a board holding pieces, tied or not, the result is not 0. -/
theorem winner_zero_iff_no_piece {N M : Nat} (s : OthelloBoard N M) :
    ∃ w, winner s = .ok w ∧ (w = 0 ↔ ∀ r c, s.board_ r c = 0) := by
  obtain ⟨w, hw, h | ⟨hw0, hwpos, _, _⟩⟩ := winner_spec s
  · refine ⟨w, hw, ?_⟩
    simp only [h.1, true_iff]
    intro r c
    by_contra hne
    have h1 := h.2 _ hne
    have h2 := cellCount_pos s.board_ r c
    omega
  · refine ⟨w, hw, ?_⟩
    constructor
    · intro h0
      exact (hw0 h0).elim
    · intro hall
      have := (cellCount_eq_zero_iff s.board_ w).mpr (fun r c h => hw0 (by rw [← h, hall r c]))
      omega

/-! ## The constructor -/

theorem init_fields {N M : Nat} {s : OthelloBoard N M} (h : init N M = .ok s) :
    s.moves_ = [] ∧ s.lastPlayer_ = 0 := by
  unfold init at h
  dsimp only at h
  split at h
  · cases h
  · split at h
    · cases h
    · split at h
      · cases h
      · split at h
        · cases h
        · cases h
          exact ⟨rfl, rfl⟩

/-- On a board with at least two rows and two columns the constructor ends normally and
leaves the four centre pieces on an otherwise Empty grid. -/
theorem init_spec {N M : Nat} (hN : 2 ≤ N) (hM : 2 ≤ M) :
    ∃ b : Grid N M, init N M = .ok { board_ := b, moves_ := [], lastPlayer_ := 0 } ∧
      ∀ a c : Int, readCell b a c =
        if a = (N : Int) / 2 ∧ c = (M : Int) / 2 then .ok 2
        else if a = (N : Int) / 2 - 1 ∧ c = (M : Int) / 2 then .ok 1
        else if a = (N : Int) / 2 ∧ c = (M : Int) / 2 - 1 then .ok 1
        else if a = (N : Int) / 2 - 1 ∧ c = (M : Int) / 2 - 1 then .ok 2
        else if onBoard N M a c = true then .ok 0
        else .error .outOfBounds := by
  have hN' : (2 : Int) ≤ (N : Int) := by exact_mod_cast hN
  have hM' : (2 : Int) ≤ (M : Int) := by exact_mod_cast hM
  have o1 : onBoard N M ((N : Int) / 2 - 1) ((M : Int) / 2 - 1) = true :=
    onBoard_iff.mpr (by omega)
  have o2 : onBoard N M ((N : Int) / 2) ((M : Int) / 2 - 1) = true :=
    onBoard_iff.mpr (by omega)
  have o3 : onBoard N M ((N : Int) / 2 - 1) ((M : Int) / 2) = true :=
    onBoard_iff.mpr (by omega)
  have o4 : onBoard N M ((N : Int) / 2) ((M : Int) / 2) = true :=
    onBoard_iff.mpr (by omega)
  obtain ⟨b1, h1⟩ := writeCell_ok_of_onBoard (fun _ _ => (0 : UChar)) 2 o1
  obtain ⟨b2, h2⟩ := writeCell_ok_of_onBoard b1 1 o2
  obtain ⟨b3, h3⟩ := writeCell_ok_of_onBoard b2 1 o3
  obtain ⟨b4, h4⟩ := writeCell_ok_of_onBoard b3 2 o4
  refine ⟨b4, ?_, ?_⟩
  · unfold init
    simp only [h1, h2, h3, h4]
  · intro a c
    rw [readCell_writeCell h4, readCell_writeCell h3, readCell_writeCell h2,
      readCell_writeCell h1]
    have h0 : readCell (fun _ _ => (0 : UChar) : Grid N M) a c =
        if onBoard N M a c = true then .ok 0 else .error .outOfBounds := by
      by_cases hob : onBoard N M a c = true
      · rw [if_pos hob]
        obtain ⟨v, hv⟩ := readCell_ok_of_onBoard (fun _ _ => (0 : UChar) : Grid N M) hob
        rw [hv]
        unfold readCell at hv
        split at hv
        · exact congrArg _ (Except.ok.inj hv).symm
        · cases hv
      · rw [if_neg hob]
        exact readCell_error _ hob
    rw [h0]

/-- The constructor on the 8 x 8 board yields the grid `startGrid`. -/
theorem init_eight :
    init 8 8 = .ok { board_ := startGrid, moves_ := [], lastPlayer_ := 0 } := by
  have h : ∃ s : OthelloBoard 8 8, init 8 8 = .ok s ∧ s.moves_ = [] ∧ s.lastPlayer_ = 0 ∧
      ∀ r c, s.board_ r c = startGrid r c := ⟨_, rfl, rfl, rfl, by decide⟩
  obtain ⟨⟨b, mv, lp⟩, hs, h1, h2, h3⟩ := h
  simp only at h1 h2 h3
  subst h1 h2
  have hb : b = startGrid := by
    funext r c
    exact h3 r c
  rw [hs, hb]

/-- The state `startState` is the fresh 8 x 8 board after `avaliableMoves(1)`. -/
theorem startState_reachable : Reachable startState :=
  .avail _ _ 1 4 (.fresh _ init_eight) rfl

/-! ## Reachable states and the stored set -/

theorem flipped_not_empty {N M : Nat} {b : Grid N M} {p : UChar} {x y a c : Int}
    (h : Flipped b p x y a c) : readCell b a c ≠ .ok 0 := by
  obtain ⟨dx, dy, k, _, hk, t, ht1, ht2, rfl, rfl⟩ := h
  obtain ⟨v, hv, hv0, _⟩ := hk.2.1 t ht1 ht2
  rw [hv]
  intro h0
  exact hv0 (Except.ok.inj h0)

/-- A call of `play` leaves Empty every Empty square other than the one played on. -/
theorem play_keeps_empty {N M : Nat} {s s1 : OthelloBoard N M} {p : UChar} {x y : Int}
    {r : Bool} (h : play s p x y = .ok (s1, r)) {a c : Int}
    (hempty : readCell s.board_ a c = .ok 0) :
    readCell s1.board_ a c = .ok 0 ∨ (r = true ∧ a = x ∧ c = y) := by
  rcases play_spec s p x y with ⟨_, b1, h1, _, _, hoff⟩ | ⟨_, h1⟩
  · rw [h1] at h
    cases h
    by_cases hxy : a = x ∧ c = y
    · exact Or.inr ⟨rfl, hxy⟩
    · left
      have hnf : ¬ Flipped s.board_ p x y a c := fun hf => flipped_not_empty hf hempty
      show readCell b1 a c = .ok 0
      rw [hoff a c hnf hxy]
      exact hempty
  · rw [h1] at h
    cases h
    exact Or.inl hempty

theorem play_moves_eq {N M : Nat} {s s1 : OthelloBoard N M} {p : UChar} {x y : Int}
    {r : Bool} (h : play s p x y = .ok (s1, r)) : s1.moves_ = s.moves_ := by
  rcases play_spec s p x y with ⟨_, b1, h1, _⟩ | ⟨_, h1⟩
  · rw [h1] at h
    cases h
    rfl
  · rw [h1] at h
    cases h
    rfl

theorem reachable_iff_since {N M : Nat} (s : OthelloBoard N M) :
    Reachable s ↔ ∃ g, ReachableSince s g := by
  constructor
  · intro h
    induction h with
    | fresh s h0 => exact ⟨[], .fresh s h0⟩
    | avail s s1 p n _ h1 ih =>
      obtain ⟨g, hg⟩ := ih
      exact ⟨[], .avail s s1 g p n hg h1⟩
    | played s s1 p x y r _ h1 ih =>
      obtain ⟨g, hg⟩ := ih
      exact ⟨_, .played s s1 g p x y r hg h1⟩
  · rintro ⟨g, hg⟩
    induction hg with
    | fresh s h0 => exact .fresh s h0
    | avail s s1 g p n _ h1 ih => exact .avail s s1 p n ih h1
    | played s s1 g p x y r _ h1 ih => exact .played s s1 p x y r ih h1

/-- C8 (as stated, refuted): from the fresh 8 x 8 board, `avaliableMoves(1)` followed by
`play(1, 2, 3)` reaches a state whose stored legal-move set still contains `(2, 3)`,
a cell that now holds player 1. -/
theorem stored_move_on_occupied_cell :
    ∃ s : OthelloBoard 8 8, Reachable s ∧ (2, 3) ∈ s.moves_ ∧
      readCell s.board_ 2 3 = .ok 1 ∧ readCell s.board_ 2 3 ≠ .ok 0 := by
  refine ⟨_, .played _ _ 1 2 3 true (.avail _ _ 1 4 (.fresh _ rfl) rfl) rfl, ?_, rfl, ?_⟩
  · decide
  · intro h
    exact absurd (Except.ok.inj h) (by decide)

/-- C8 (amended): in every state reachable from a freshly constructed board by any sequence
of `avaliableMoves` and `play` calls, every coordinate in the stored legal-move set refers
to a cell that is currently Empty, or to a cell on which a successful `play` call has
placed a piece since the set was last computed. -/
theorem stored_moves_empty_or_played_since {N M : Nat} (s : OthelloBoard N M)
    (g : List Coord) (h : ReachableSince s g) :
    ∀ q ∈ s.moves_, readCell s.board_ q.1 q.2 = .ok 0 ∨ q ∈ g := by
  induction h with
  | fresh s h0 =>
    intro q hq
    rw [(init_fields h0).1] at hq
    cases hq
  | avail s s1 g p n _ h1 _ =>
    intro q hq
    obtain ⟨mv, hrun, hmv⟩ := avaliableMoves_spec s p
    rw [hrun] at h1
    cases h1
    exact Or.inl ((hmv q).mp hq).1
  | played s s1 g p x y r _ h1 ih =>
    intro q hq
    rw [play_moves_eq h1] at hq
    rcases ih q hq with hempty | hg
    · rcases play_keeps_empty h1 hempty with h2 | ⟨hr, hx, hy⟩
      · exact Or.inl h2
      · right
        rw [if_pos hr]
        have : q = (x, y) := Prod.ext hx hy
        rw [this]
        exact List.mem_cons_self _ _
    · right
      split
      · exact List.mem_cons_of_mem _ hg
      · exact hg

/-- Witness for C8 -/
theorem stored_moves_empty_or_played_since_witness :
    ∃ s : OthelloBoard 8 8, ReachableSince s [(2, 3)] ∧
      ∀ q ∈ s.moves_, readCell s.board_ q.1 q.2 = .ok 0 ∨ q ∈ [((2 : Int), (3 : Int))] := by
  have hr : ∃ s : OthelloBoard 8 8, ReachableSince s [(2, 3)] :=
    ⟨_, .played _ _ [] 1 2 3 true (.avail _ _ [] 1 4 (.fresh _ rfl) rfl) rfl⟩
  obtain ⟨s, hs⟩ := hr
  exact ⟨s, hs, stored_moves_empty_or_played_since s _ hs⟩

/-- C9: for every `N ≥ 2` and `M ≥ 2` the constructor returns a board on which
`(N/2-1, M/2-1)` and `(N/2, M/2)` hold player 2, `(N/2, M/2-1)` and `(N/2-1, M/2)` hold
player 1 (four distinct cells, two per player), every other cell is Empty, the last-player
marker is 0 and the legal-move set is empty. -/
theorem init_four_centre_cells (N M : Nat) (hN : 2 ≤ N) (hM : 2 ≤ M) :
    ∃ s : OthelloBoard N M, init N M = .ok s ∧
      readCell s.board_ ((N : Int) / 2 - 1) ((M : Int) / 2 - 1) = .ok 2 ∧
      readCell s.board_ ((N : Int) / 2) ((M : Int) / 2) = .ok 2 ∧
      readCell s.board_ ((N : Int) / 2) ((M : Int) / 2 - 1) = .ok 1 ∧
      readCell s.board_ ((N : Int) / 2 - 1) ((M : Int) / 2) = .ok 1 ∧
      (∀ a c : Int, onBoard N M a c = true →
        ¬ (a = (N : Int) / 2 - 1 ∧ c = (M : Int) / 2 - 1) →
        ¬ (a = (N : Int) / 2 ∧ c = (M : Int) / 2) →
        ¬ (a = (N : Int) / 2 ∧ c = (M : Int) / 2 - 1) →
        ¬ (a = (N : Int) / 2 - 1 ∧ c = (M : Int) / 2) →
        readCell s.board_ a c = .ok 0) ∧
      getLastPlayer s = 0 ∧ getValidPlays s = [] := by
  obtain ⟨b, hb, hcells⟩ := init_spec hN hM
  refine ⟨_, hb, ?_, ?_, ?_, ?_, ?_, rfl, rfl⟩
  · show readCell b _ _ = _
    rw [hcells]
    rw [if_neg (by omega), if_neg (by omega), if_neg (by omega), if_pos ⟨rfl, rfl⟩]
  · show readCell b _ _ = _
    rw [hcells, if_pos ⟨rfl, rfl⟩]
  · show readCell b _ _ = _
    rw [hcells, if_neg (by omega), if_neg (by omega), if_pos ⟨rfl, rfl⟩]
  · show readCell b _ _ = _
    rw [hcells, if_neg (by omega), if_pos ⟨rfl, rfl⟩]
  · intro a c hob n1 n2 n3 n4
    show readCell b _ _ = _
    rw [hcells, if_neg n2, if_neg n4, if_neg n3, if_neg n1, if_pos hob]

/-- Witness for C9: the 8 x 8 board -/
theorem init_four_centre_cells_witness :
    ∃ s : OthelloBoard 8 8, init 8 8 = .ok s ∧
      readCell s.board_ 3 3 = .ok 2 ∧ readCell s.board_ 4 4 = .ok 2 ∧
      readCell s.board_ 4 3 = .ok 1 ∧ readCell s.board_ 3 4 = .ok 1 ∧
      (∀ a c : Int, onBoard 8 8 a c = true →
        ¬ (a = 3 ∧ c = 3) → ¬ (a = 4 ∧ c = 4) → ¬ (a = 4 ∧ c = 3) → ¬ (a = 3 ∧ c = 4) →
        readCell s.board_ a c = .ok 0) ∧
      getLastPlayer s = 0 ∧ getValidPlays s = [] :=
  init_four_centre_cells 8 8 (by decide) (by decide)

/-- C10: on a freshly constructed 8 x 8 board, `avaliableMoves(1)` returns 4 and the
stored legal-move set is exactly `{(2,3), (3,2), (4,5), (5,4)}`. -/
theorem fresh_board_has_four_moves_for_player_one :
    ∃ s s1 : OthelloBoard 8 8, init 8 8 = .ok s ∧ avaliableMoves s 1 = .ok (s1, 4) ∧
      getValidPlays s1 = [(2, 3), (3, 2), (4, 5), (5, 4)] ∧
      (∀ q : Coord, q ∈ getValidPlays s1 ↔
        (q = (2, 3) ∨ q = (3, 2) ∨ q = (4, 5) ∨ q = (5, 4))) := by
  refine ⟨_, _, rfl, rfl, rfl, ?_⟩
  intro q
  show q ∈ [(2, 3), (3, 2), (4, 5), (5, 4)] ↔ _
  simp

/-! ## The opening move -/

/-- C11: end-to-end scenario on the starting 8 x 8 board.  After the legal moves of
player 1 are computed, `play(1, 2, 3)` returns true, the centre cell `(3, 3)` flips from
player 2 to player 1, the cell `(2, 3)` holds player 1, `getLastPlayer()` is 1, and
`avaliableMoves(2)` afterwards returns a non-zero count (it returns 3). -/
theorem opening_move_scenario :
    ∃ s s1 s2 s3 : OthelloBoard 8 8, init 8 8 = .ok s ∧
      avaliableMoves s 1 = .ok (s1, 4) ∧ readCell s1.board_ 3 3 = .ok 2 ∧
      play s1 1 2 3 = .ok (s2, true) ∧
      readCell s2.board_ 3 3 = .ok 1 ∧ readCell s2.board_ 2 3 = .ok 1 ∧
      getLastPlayer s2 = 1 ∧
      avaliableMoves s2 2 = .ok (s3, 3) ∧ (3 : Int) ≠ 0 ∧
      getValidPlays s3 = [(2, 2), (2, 4), (4, 2)] :=
  ⟨_, _, _, _, rfl, rfl, rfl, rfl, rfl, rfl, rfl, rfl, by decide, rfl⟩

/-! ## The reserved identifier 0 -/

theorem not_legal_zero {N M : Nat} (b : Grid N M) (x y : Int) : ¬ Legal b 0 x y := by
  rintro ⟨_, dx, dy, _, k, _, _, c, _, hc0, hc⟩
  exact hc0 hc

/-- C19: the reserved identifier 0 is inert.  For every state, `avaliableMoves(0)` returns
0 and leaves the stored legal-move set empty (grid and last player as before), and for
every `(x, y)`, `play(0, x, y)` returns false in the unchanged state. -/
theorem identifier_zero_is_inert {N M : Nat} (s : OthelloBoard N M) :
    avaliableMoves s 0 = .ok ({ s with moves_ := [] }, 0) ∧
      ∀ x y : Int, play s 0 x y = .ok (s, false) := by
  constructor
  · obtain ⟨mv, hrun, hmv⟩ := avaliableMoves_spec s 0
    have hnil : mv = [] := by
      apply List.eq_nil_iff_forall_not_mem.mpr
      intro q hq
      exact not_legal_zero _ _ _ ((hmv q).mp hq)
    rw [hrun, hnil]
    rfl
  · intro x y
    rcases play_spec s 0 x y with ⟨hok, _⟩ | ⟨_, h⟩
    · exact (not_legal_zero _ _ _ hok.2).elim
    · exact h

/-! ## Termination and bounds of the ray scans -/

/-- C17: every ray scan terminates and stays inside the grid.  For every `N x M` grid,
every origin cell of the grid, every one of the 8 directions and every player, the
direction-reversing loop of `avaliableMoves` and that of `play`, each run with a budget of
`2 * max N M` evaluations of its loop condition, ends normally: the budget is not
exhausted and no cell outside `0 ≤ row < N`, `0 ≤ col < M` is read or written.  Hence
`avaliableMoves` and `play` return a result in every state. -/
theorem ray_scans_terminate_inside_grid {N M : Nat} (b : Grid N M) (player : UChar)
    (x y dx dy : Int) (hxy : onBoard N M x y = true) (hd : IsDir dx dy)
    (moves : List Coord) (isLegal : Bool) :
    (∃ mv, avaliableMovesRay b player x y dx dy (2 * max N M) (x + dx) (y + dy) 1 moves
        = .ok mv) ∧
    (∃ r, playRay player x y dx dy (2 * max N M) (x + dx) (y + dy) 1 b isLegal = .ok r) ∧
    (∀ s : OthelloBoard N M, ∃ r, avaliableMoves s player = .ok r) ∧
    (∀ (s : OthelloBoard N M) (x1 y1 : Int), ∃ r, play s player x1 y1 = .ok r) := by
  refine ⟨?_, ?_, ?_, ?_⟩
  · rcases avaliableMovesRay_spec b player hd hxy moves with ⟨h, _⟩ | ⟨h, _⟩
    · exact ⟨_, h⟩
    · exact ⟨_, h⟩
  · rcases playRay_spec b player hd hxy isLegal with ⟨_, b1, _, h, _⟩ | ⟨_, h⟩
    · exact ⟨_, h⟩
    · exact ⟨_, h⟩
  · intro s
    obtain ⟨mv, h, _⟩ := avaliableMoves_spec s player
    exact ⟨_, h⟩
  · intro s x1 y1
    rcases play_spec s player x1 y1 with ⟨_, b1, h, _⟩ | ⟨_, h⟩
    · exact ⟨_, h⟩
    · exact ⟨_, h⟩

/-- Witness for C17: the ray from `(2, 3)` towards increasing rows on the starting board -/
theorem ray_scans_terminate_inside_grid_witness :
    onBoard 8 8 2 3 = true ∧ IsDir 1 0 ∧
    (∃ mv, avaliableMovesRay startGrid 1 2 3 1 0 (2 * max 8 8) (2 + 1) (3 + 0) 1 []
        = .ok mv) ∧
    (∃ r, playRay 1 2 3 1 0 (2 * max 8 8) (2 + 1) (3 + 0) 1 startGrid false = .ok r) ∧
    (∀ s : OthelloBoard 8 8, ∃ r, avaliableMoves s 1 = .ok r) ∧
    (∀ (s : OthelloBoard 8 8) (x1 y1 : Int), ∃ r, play s 1 x1 y1 = .ok r) :=
  ⟨by decide, by decide,
    ray_scans_terminate_inside_grid startGrid 1 2 3 1 0 (by decide) (by decide) [] false⟩

/-! ## The last-player marker and the stored identifiers -/

theorem avaliableMoves_frame {N M : Nat} {s s1 : OthelloBoard N M} {p : UChar} {n : Int}
    (h : avaliableMoves s p = .ok (s1, n)) :
    s1.board_ = s.board_ ∧ s1.lastPlayer_ = s.lastPlayer_ := by
  obtain ⟨mv, hrun, _⟩ := avaliableMoves_spec s p
  rw [hrun] at h
  cases h
  exact ⟨rfl, rfl⟩

theorem play_lastPlayer {N M : Nat} {s s1 : OthelloBoard N M} {p : UChar} {x y : Int}
    {r : Bool} (h : play s p x y = .ok (s1, r)) :
    s1.lastPlayer_ = if r then p else s.lastPlayer_ := by
  rcases play_spec s p x y with ⟨_, b1, h1, _⟩ | ⟨_, h1⟩
  · rw [h1] at h
    cases h
    rfl
  · rw [h1] at h
    cases h
    rfl

/-- C15: in every state reachable from a freshly constructed board by any sequence of
`avaliableMoves` and `play` calls, the last-player marker is 0 if no `play` call has
returned true so far, and otherwise equals the player argument of the most recent `play`
call that returned true; a `play` call that returns false and an `avaliableMoves` call
leave the marker as it is. -/
theorem lastPlayer_is_most_recent_successful_player {N M : Nat} (s : OthelloBoard N M)
    (m : Option UChar) (h : ReachableMark s m) :
    getLastPlayer s = m.getD 0 ∧
    (∀ (p : UChar) (s1 : OthelloBoard N M) (n : Int),
      avaliableMoves s p = .ok (s1, n) → getLastPlayer s1 = getLastPlayer s) ∧
    (∀ (p : UChar) (x y : Int) (s1 : OthelloBoard N M),
      play s p x y = .ok (s1, false) → getLastPlayer s1 = getLastPlayer s) ∧
    (∀ (p : UChar) (x y : Int) (s1 : OthelloBoard N M),
      play s p x y = .ok (s1, true) → getLastPlayer s1 = p) := by
  refine ⟨?_, ?_, ?_, ?_⟩
  · induction h with
    | fresh s h0 => exact (init_fields h0).2
    | avail s s1 m p n _ h1 ih =>
      show s1.lastPlayer_ = _
      rw [(avaliableMoves_frame h1).2]
      exact ih
    | played s s1 m p x y r _ h1 ih =>
      show s1.lastPlayer_ = _
      rw [play_lastPlayer h1]
      cases r
      · exact ih
      · rfl
  · intro p s1 n h1
    exact (avaliableMoves_frame h1).2
  · intro p x y s1 h1
    exact play_lastPlayer h1
  · intro p x y s1 h1
    exact play_lastPlayer h1

/-- Witness for C15: the state after the opening move `play(1, 2, 3)` -/
theorem lastPlayer_is_most_recent_successful_player_witness :
    ∃ s : OthelloBoard 8 8, ReachableMark s (some 1) ∧ getLastPlayer s = 1 := by
  have hr : ∃ s : OthelloBoard 8 8, ReachableMark s (some 1) :=
    ⟨_, .played _ _ none 1 2 3 true (.avail _ _ none 1 4 (.fresh _ rfl) rfl) rfl⟩
  obtain ⟨s, hs⟩ := hr
  exact ⟨s, hs, (lastPlayer_is_most_recent_successful_player s _ hs).1⟩

theorem init_cells {N M : Nat} {s : OthelloBoard N M} (h : init N M = .ok s)
    (r : Fin N) (c : Fin M) : s.board_ r c = 0 ∨ s.board_ r c = 1 ∨ s.board_ r c = 2 := by
  unfold init at h
  dsimp only at h
  split at h
  · cases h
  · rename_i b1 h1
    split at h
    · cases h
    · rename_i b2 h2
      split at h
      · cases h
      · rename_i b3 h3
        split at h
        · cases h
        · rename_i b4 h4
          cases h
          have e := readCell_fin b4 r c
          rw [readCell_writeCell h4, readCell_writeCell h3, readCell_writeCell h2,
            readCell_writeCell h1, readCell_fin] at e
          show b4 r c = 0 ∨ b4 r c = 1 ∨ b4 r c = 2
          split at e
          · exact Or.inr (Or.inr (Except.ok.inj e).symm)
          · split at e
            · exact Or.inr (Or.inl (Except.ok.inj e).symm)
            · split at e
              · exact Or.inr (Or.inl (Except.ok.inj e).symm)
              · split at e
                · exact Or.inr (Or.inr (Except.ok.inj e).symm)
                · exact Or.inl (Except.ok.inj e).symm

/-- After `play(p, x, y)` every cell holds `p` or what it held before. -/
theorem play_cells {N M : Nat} {s s1 : OthelloBoard N M} {p : UChar} {x y : Int}
    {r : Bool} (h : play s p x y = .ok (s1, r)) (a : Fin N) (c : Fin M) :
    s1.board_ a c = s.board_ a c ∨ (r = true ∧ s1.board_ a c = p) := by
  rcases play_spec s p x y with ⟨_, b1, h1, hxy, hon, hoff⟩ | ⟨_, h1⟩
  · rw [h1] at h
    cases h
    have e := readCell_fin b1 a c
    by_cases hf : Flipped s.board_ p x y (a.val : Int) (c.val : Int)
    · rw [hon _ _ hf] at e
      exact Or.inr ⟨rfl, (Except.ok.inj e).symm⟩
    · by_cases ho : ((a.val : Int) = x ∧ (c.val : Int) = y)
      · rw [ho.1, ho.2, hxy] at e
        exact Or.inr ⟨rfl, (Except.ok.inj e).symm⟩
      · rw [hoff _ _ hf ho, readCell_fin] at e
        exact Or.inl (Except.ok.inj e).symm
  · rw [h1] at h
    cases h
    exact Or.inl rfl

/-- The stored identifiers of a state reached with valid players: every cell holds 0 or an
identifier of `ids`, the marker is 0 or in `ids`, and `ids` are all in `1..254`. -/
theorem reachableValid_inv {N M : Nat} (s : OthelloBoard N M) (ids : List UChar)
    (h : ReachableValid s ids) :
    (∀ r c, s.board_ r c = 0 ∨ s.board_ r c ∈ ids) ∧
    (s.lastPlayer_ = 0 ∨ s.lastPlayer_ ∈ ids) ∧
    (∀ v ∈ ids, 1 ≤ v.val ∧ v.val ≤ 254) := by
  induction h with
  | fresh s h0 =>
    refine ⟨fun r c => ?_, Or.inl (init_fields h0).2, ?_⟩
    · rcases init_cells h0 r c with h | h | h
      · exact Or.inl h
      · exact Or.inr (by rw [h]; simp)
      · exact Or.inr (by rw [h]; simp)
    · intro v hv
      simp only [List.mem_cons, List.mem_singleton, List.mem_nil_iff, or_false] at hv
      rcases hv with rfl | rfl <;> decide
  | avail s s1 ids p n _ _ _ h1 ih =>
    obtain ⟨hb, hl⟩ := avaliableMoves_frame h1
    rw [hb, hl]
    exact ih
  | played s s1 ids p x y r hp1 hp2 _ h1 ih =>
    obtain ⟨ihc, ihl, ihi⟩ := ih
    refine ⟨fun a c => ?_, ?_, ?_⟩
    · rcases play_cells h1 a c with h | ⟨hr, h⟩
      · rw [h]
        rcases ihc a c with h0 | hm
        · exact Or.inl h0
        · right
          split
          · exact List.mem_cons_of_mem _ hm
          · exact hm
      · right
        rw [if_pos hr, h]
        exact List.mem_cons_self _ _
    · rw [play_lastPlayer h1]
      cases r
      · simpa using ihl
      · right
        simp
    · intro v hv
      split at hv
      · rcases List.mem_cons.mp hv with rfl | hv'
        · exact ⟨hp1, hp2⟩
        · exact ihi v hv'
      · exact ihi v hv

/-- C16: the presentation sentinel 255 never appears in stored state.  In every state
reachable from a freshly constructed board by any sequence of `avaliableMoves` and `play`
calls whose player identifiers are among `1..254`, no grid cell holds 255 and the
last-player marker is not 255; every grid cell holds 0 or an identifier that was placed at
construction (1 or 2) or passed to a `play` call that returned true. -/
theorem sentinel_never_stored {N M : Nat} (s : OthelloBoard N M) (ids : List UChar)
    (h : ReachableValid s ids) :
    (∀ r c, s.board_ r c ≠ 255) ∧ getLastPlayer s ≠ 255 ∧
    (∀ r c, s.board_ r c = 0 ∨ s.board_ r c ∈ ids) := by
  obtain ⟨hc, hl, hi⟩ := reachableValid_inv s ids h
  have hne : ∀ v : UChar, v = 0 ∨ v ∈ ids → v ≠ 255 := by
    rintro v (h0 | hm) h255
    · rw [h0] at h255
      exact absurd h255 (by decide)
    · have := (hi v hm).2
      rw [h255] at this
      exact absurd this (by decide)
  exact ⟨fun r c => hne _ (hc r c), hne _ hl, hc⟩

/-- Witness for C16: the state after the opening move `play(1, 2, 3)` -/
theorem sentinel_never_stored_witness :
    ∃ s : OthelloBoard 8 8, ReachableValid s [1, 1, 2] ∧
      (∀ r c, s.board_ r c ≠ 255) ∧ getLastPlayer s ≠ 255 ∧
      (∀ r c, s.board_ r c = 0 ∨ s.board_ r c ∈ [(1 : UChar), 1, 2]) := by
  have hr : ∃ s : OthelloBoard 8 8, ReachableValid s [1, 1, 2] :=
    ⟨_, .played _ _ [1, 2] 1 2 3 true (by decide) (by decide)
      (.avail _ _ [1, 2] 1 4 (by decide) (by decide) (.fresh _ rfl) rfl) rfl⟩
  obtain ⟨s, hs⟩ := hr
  exact ⟨s, hs, sentinel_never_stored s _ hs⟩

/-! ## The stored set is replaced -/

theorem pairLt_trans {a b c : Coord} (h1 : pairLt a b = true) (h2 : pairLt b c = true) :
    pairLt a c = true := by
  obtain ⟨a1, a2⟩ := a
  obtain ⟨b1, b2⟩ := b
  obtain ⟨c1, c2⟩ := c
  simp only [pairLt, Bool.or_eq_true, Bool.and_eq_true, decide_eq_true_eq] at h1 h2 ⊢
  omega

theorem setInsert_ordered (a : Coord) (l : List Coord) (h : SetOrdered l) :
    SetOrdered (setInsert a l) := by
  induction l with
  | nil => simp [setInsert, SetOrdered]
  | cons b l ih =>
    have hb := List.pairwise_cons.mp h
    unfold setInsert
    by_cases h1 : pairLt a b = true
    · rw [if_pos h1]
      refine List.pairwise_cons.mpr ⟨?_, h⟩
      intro q hq
      rcases List.mem_cons.mp hq with rfl | hq'
      · exact h1
      · exact pairLt_trans h1 (hb.1 q hq')
    · rw [if_neg h1]
      by_cases h2 : pairLt b a = true
      · rw [if_pos h2]
        refine List.pairwise_cons.mpr ⟨?_, ih hb.2⟩
        intro q hq
        rcases (mem_setInsert a q l).mp hq with rfl | hq'
        · exact h2
        · exact hb.1 q hq'
      · rw [if_neg h2]
        exact h

theorem setOrdered_nodup {l : List Coord} (h : SetOrdered l) : l.Nodup := by
  refine List.Pairwise.imp ?_ h
  intro a b hab heq
  rw [heq, pairLt_irrefl] at hab
  cases hab

/-- A property preserved by every step of a loop holds after the loop. -/
theorem foldlM_preserves {σ α : Type} (f : σ → α → Except Fault σ) (P : σ → Prop) :
    ∀ (l : List α), (∀ a ∈ l, ∀ s s1, P s → f s a = .ok s1 → P s1) →
      ∀ s s1, P s → l.foldlM f s = .ok s1 → P s1 := by
  intro l
  induction l with
  | nil =>
    intro _ s s1 hs h
    simp only [List.foldlM, pure, Except.pure] at h
    cases h
    exact hs
  | cons a l ih =>
    intro hstep s s1 hs h
    rw [List.foldlM_cons] at h
    cases hfa : f s a with
    | error e =>
      rw [hfa] at h
      cases h
    | ok s2 =>
      rw [hfa] at h
      exact ih (fun b hb => hstep b (List.mem_cons_of_mem _ hb)) s2 s1
        (hstep a (List.mem_cons_self _ _) s s2 hs hfa) h

theorem avaliableMoves_ordered {N M : Nat} {s s1 : OthelloBoard N M} {p : UChar} {n : Int}
    (h : avaliableMoves s p = .ok (s1, n)) : SetOrdered s1.moves_ := by
  unfold avaliableMoves at h
  split at h
  · cases h
  · rename_i moves hfold
    cases h
    show SetOrdered moves
    refine foldlM_preserves _ SetOrdered (List.range N) ?_ [] moves List.Pairwise.nil hfold
    intro i hi mv0 mv1 h0 hrow
    refine foldlM_preserves _ SetOrdered (List.range M) ?_ mv0 mv1 h0 hrow
    intro j hj mv2 mv3 h2 hsq
    have hij : onBoard N M (i : Int) (j : Int) = true :=
      onBoard_iff.mpr (by
        have := List.mem_range.mp hi
        have := List.mem_range.mp hj
        omega)
    rcases avaliableMovesSquare_spec s.board_ p hij mv2 with ⟨h3, _⟩ | ⟨h3, _⟩
    · rw [h3] at hsq
      cases hsq
      exact setInsert_ordered _ _ h2
    · rw [h3] at hsq
      cases hsq
      exact h2

theorem avaliableMoves_congr {N M : Nat} {s s2 : OthelloBoard N M} {p : UChar}
    {mv : List Coord} {n : Int} (hb : s2.board_ = s.board_)
    (h : avaliableMoves s p = .ok ({ s with moves_ := mv }, n)) :
    avaliableMoves s2 p = .ok ({ s2 with moves_ := mv }, n) := by
  unfold avaliableMoves at h ⊢
  rw [hb]
  split at h
  · cases h
  · rename_i moves hfold
    have h1 := Except.ok.inj h
    have h2 : moves = mv := congrArg (fun r => r.1.moves_) h1
    have h3 : (moves.length : Int) = n := congrArg (fun r => r.2) h1
    rw [h2] at h3 ⊢
    rw [h3]

/-- C12: `avaliableMoves(player)` replaces the stored legal-move set.  The call returns;
the grid and the last-player marker are unchanged; the new set has no repeated coordinate
and the returned value is the number of its (distinct) coordinates; the new set and the
returned count are the same for every state with the same grid, whatever its stored set
and marker; and calling it again with the same player yields the same set and count. -/
theorem avaliableMoves_replaces_stored_set {N M : Nat} (s : OthelloBoard N M)
    (player : UChar) :
    ∃ s1 n, avaliableMoves s player = .ok (s1, n) ∧
      s1.board_ = s.board_ ∧ getLastPlayer s1 = getLastPlayer s ∧
      (getValidPlays s1).Nodup ∧ SetOrdered (getValidPlays s1) ∧
      n = ((getValidPlays s1).length : Int) ∧
      n = (((getValidPlays s1).toFinset.card : Nat) : Int) ∧
      (∀ s2 : OthelloBoard N M, s2.board_ = s.board_ →
        ∃ s3, avaliableMoves s2 player = .ok (s3, n) ∧
          getValidPlays s3 = getValidPlays s1) ∧
      avaliableMoves s1 player = .ok (s1, n) := by
  obtain ⟨mv, hrun, _⟩ := avaliableMoves_spec s player
  have hord := avaliableMoves_ordered hrun
  have hnd : mv.Nodup := setOrdered_nodup hord
  refine ⟨_, _, hrun, rfl, rfl, hnd, hord, rfl, ?_, ?_, ?_⟩
  · show ((mv.length : Nat) : Int) = ((mv.toFinset.card : Nat) : Int)
    rw [List.toFinset_card_of_nodup hnd]
  · intro s2 hb
    exact ⟨_, avaliableMoves_congr hb hrun, rfl⟩
  · exact avaliableMoves_congr rfl hrun

/-! ## The random player -/

theorem iterAdvance_spec :
    ∀ (n : Nat) (l : List Coord) (q : Coord), l[n]? = some q →
      ∃ t, iterAdvance n l = .ok (q :: t) := by
  intro n
  induction n with
  | zero =>
    intro l q h
    cases l with
    | nil => cases h
    | cons a t =>
      simp only [List.getElem?_cons_zero, Option.some.injEq] at h
      exact ⟨t, by rw [h]; rfl⟩
  | succ n ih =>
    intro l q h
    cases l with
    | nil => cases h
    | cons a t =>
      simp only [List.getElem?_cons_succ] at h
      exact ih t q h

theorem draw_index_lt {k : Nat} (hk : 0 < k) (r : Int) :
    (r % (k : Int)).toNat < k := by
  have h1 : 0 ≤ r % (k : Int) := Int.emod_nonneg _ (by omega)
  have h2 : r % (k : Int) < (k : Int) := Int.emod_lt_of_pos _ (by omega)
  omega

/-- The call `returnPlay` with a non-negative draw outputs the move at index
`randNum mod size` of the listing of `moves_`. -/
theorem returnPlay_eq (board : OthelloBoard 8 8) (r : Int) (hr : 0 ≤ r) (q : Coord)
    (hq : (getValidPlays board)[(r % ((getValidPlays board).length : Int)).toNat]? = some q) :
    returnPlay board r = .ok q := by
  have hpos : 0 < (getValidPlays board).length := by
    rcases Nat.eq_zero_or_pos (getValidPlays board).length with h0 | h0
    · rw [List.length_eq_zero.mp h0] at hq
      cases hq
    · exact h0
  unfold returnPlay
  dsimp only
  rw [if_neg (by omega), Int.tmod_eq_emod hr (by omega)]
  obtain ⟨t, ht⟩ := iterAdvance_spec _ _ q hq
  rw [ht]

theorem ordered_rank :
    ∀ (l : List Coord), SetOrdered l → ∀ (i : Nat) (q : Coord), l[i]? = some q →
      l.countP (fun a => pairLt a q) = i := by
  intro l
  induction l with
  | nil =>
    intro _ i q h
    cases h
  | cons a t ih =>
    intro hs i q h
    have hc := List.pairwise_cons.mp hs
    rw [List.countP_cons]
    cases i with
    | zero =>
      simp only [List.getElem?_cons_zero, Option.some.injEq] at h
      subst h
      rw [pairLt_irrefl]
      have : t.countP (fun b => pairLt b a) = 0 := by
        rw [List.countP_eq_zero]
        intro b hb
        rw [pairLt_asymm (hc.1 b hb)]
        simp
      simp [this]
    | succ j =>
      simp only [List.getElem?_cons_succ] at h
      have hq : q ∈ t := List.getElem?_mem h
      rw [ih hc.2 j q h, hc.1 q hq]
      simp

/-- C13: the random adapter's choice is a function of the draw and the set.  For every
non-empty legal-move set (of size `k`) and every non-negative drawn integer `r`,
`returnPlay` returns, and its output is the element at index `r mod k` of the set listed in
its iteration order; it is a member of the set; and when the listing is ascending by row,
then column (as the listing of a `std::set` is), exactly `r mod k` elements of the set are
smaller than the output.  The call has no output other than this pair: the board and its
move set are read only. -/
theorem returnPlay_outputs_indexed_member (board : OthelloBoard 8 8) (r : Int)
    (hr : 0 ≤ r) (hne : getValidPlays board ≠ []) :
    ∃ q : Coord, returnPlay board r = .ok q ∧
      (getValidPlays board)[(r % ((getValidPlays board).length : Int)).toNat]? = some q ∧
      q ∈ getValidPlays board ∧
      (SetOrdered (getValidPlays board) →
        (getValidPlays board).countP (fun a => pairLt a q) =
          (r % ((getValidPlays board).length : Int)).toNat) := by
  have hpos : 0 < (getValidPlays board).length := List.length_pos.mpr hne
  have hlt := draw_index_lt hpos r
  have hq := List.getElem?_eq_getElem hlt
  refine ⟨_, returnPlay_eq board r hr _ hq, hq, List.getElem?_mem hq, ?_⟩
  intro hs
  exact ordered_rank _ hs _ _ hq

/-- Witness for C13: the draw 6 on the four opening moves selects the move at index 2 -/
theorem returnPlay_outputs_indexed_member_witness :
    (0 : Int) ≤ 6 ∧ getValidPlays startState ≠ [] ∧
      ∃ q : Coord, returnPlay startState 6 = .ok q ∧ q = (4, 5) ∧
        q ∈ getValidPlays startState := by
  refine ⟨by decide, by decide, ?_⟩
  obtain ⟨q, h1, h2, h3, _⟩ :=
    returnPlay_outputs_indexed_member startState 6 (by decide) (by decide)
  refine ⟨q, h1, ?_, h3⟩
  have h4 : (getValidPlays startState)[(6 % ((getValidPlays startState).length : Int)).toNat]?
      = some (4, 5) := by decide
  rw [h4] at h2
  exact (Option.some.inj h2).symm

/-! ## The distribution of the random choice -/

/-- Among the naturals below `n`, those with remainder `i` modulo `k`. -/
theorem count_remainder (n k i : Nat) (hk : 0 < k) (hi : i < k) :
    (List.range n).countP (fun r => decide (r % k = i)) =
      n / k + if i < n % k then 1 else 0 := by
  have h := Nat.count_modEq_card n hk i
  rw [Nat.mod_eq_of_lt hi] at h
  rw [← h, Nat.count]
  apply List.countP_congr
  intro r _
  simp [Nat.ModEq, Nat.mod_eq_of_lt hi]

theorem selects_iff (board : OthelloBoard 8 8) (hs : SetOrdered (getValidPlays board))
    {i : Nat} {q : Coord} (hq : (getValidPlays board)[i]? = some q) (r : Nat) :
    selects board (r : Int) q = true ↔ r % (getValidPlays board).length = i := by
  have hi : i < (getValidPlays board).length := (List.getElem?_eq_some.mp hq).1
  have hlt : r % (getValidPlays board).length < (getValidPlays board).length :=
    Nat.mod_lt _ (by omega)
  have hidx : ((r : Int) % ((getValidPlays board).length : Int)).toNat =
      r % (getValidPlays board).length := by
    rw [← Int.natCast_mod]
    exact Int.toNat_natCast _
  obtain ⟨q1, hq1⟩ : ∃ q1, (getValidPlays board)[r % (getValidPlays board).length]? =
      some q1 := ⟨_, List.getElem?_eq_getElem hlt⟩
  have hrun := returnPlay_eq board (r : Int) (by omega) q1 (by rw [hidx]; exact hq1)
  unfold selects
  rw [hrun]
  simp only [decide_eq_true_eq]
  constructor
  · intro heq
    rw [heq] at hq1
    rw [← ordered_rank _ hs _ _ hq1, ← ordered_rank _ hs _ _ hq]
  · intro heq
    rw [heq] at hq1
    rw [hq] at hq1
    exact (Option.some.inj hq1).symm

theorem selects_count (board : OthelloBoard 8 8) (hs : SetOrdered (getValidPlays board))
    {i : Nat} {q : Coord} (hq : (getValidPlays board)[i]? = some q) (n : Nat) :
    (List.range n).countP (fun (r : Nat) => selects board (r : Int) q) =
      n / (getValidPlays board).length +
        if i < n % (getValidPlays board).length then 1 else 0 := by
  have hi : i < (getValidPlays board).length := (List.getElem?_eq_some.mp hq).1
  refine Eq.trans ?_ (count_remainder n (getValidPlays board).length i (by omega) hi)
  apply List.countP_congr
  intro r _
  rw [selects_iff board hs hq r]
  simp

/-- The number of draws that select the move at index `i` of a set of size `k`. -/
theorem drawCount_eq (board : OthelloBoard 8 8) (hs : SetOrdered (getValidPlays board))
    {i : Nat} {q : Coord} (hq : (getValidPlays board)[i]? = some q) :
    drawCount board q = (randDistMax + 1) / (getValidPlays board).length +
      if i < (randDistMax + 1) % (getValidPlays board).length then 1 else 0 :=
  selects_count board hs hq (randDistMax + 1)

theorem startState_ordered : SetOrdered (getValidPlays startState) := by
  unfold SetOrdered
  decide

/-- C14 (as stated, refuted): on the four opening moves of player 1, with the draw ranging
over `0..10000000`, the move `(2, 3)` is selected by 2500001 values of the draw and the
move `(3, 2)` by 2500000, so the moves are not selected equally often. -/
theorem opening_moves_not_equally_likely :
    (2, 3) ∈ getValidPlays startState ∧ (3, 2) ∈ getValidPlays startState ∧
      drawCount startState (2, 3) = 2500001 ∧ drawCount startState (3, 2) = 2500000 ∧
      drawCount startState (2, 3) ≠ drawCount startState (3, 2) := by
  have h0 : (getValidPlays startState)[0]? = some (2, 3) := rfl
  have h1 : (getValidPlays startState)[1]? = some (3, 2) := rfl
  have hlen : (getValidPlays startState).length = 4 := rfl
  have c0 := drawCount_eq startState startState_ordered h0
  have c1 := drawCount_eq startState startState_ordered h1
  rw [hlen] at c0 c1
  have e0 : ((randDistMax + 1) / 4 + if 0 < (randDistMax + 1) % 4 then 1 else 0) = 2500001 := by
    decide
  have e1 : ((randDistMax + 1) / 4 + if 1 < (randDistMax + 1) % 4 then 1 else 0) = 2500000 := by
    decide
  have d0 := c0.trans e0
  have d1 := c1.trans e1
  refine ⟨by decide, by decide, d0, d1, ?_⟩
  intro h
  rw [d0, d1] at h
  exact absurd h (by decide)

/-- C14 (amended): for every legal-move set of size `k ≥ 1`, with the draw ranging over the
`randDistMax + 1 = 10000001` values `0..10000000`, the move at index `i` of the set (in
iteration order) is selected by `⌊10000001 / k⌋ + 1` values of the draw if
`i < 10000001 mod k` and by `⌊10000001 / k⌋` values otherwise.  So the numbers for two
moves of the set differ by at most 1; they are all equal when `k` divides 10000001, and
otherwise the first move of the set is selected by one value more than the last. -/
theorem draw_counts_by_index (board : OthelloBoard 8 8)
    (hs : SetOrdered (getValidPlays board)) (i : Nat) (q : Coord)
    (hq : (getValidPlays board)[i]? = some q) :
    randDistMax + 1 = 10000001 ∧
    drawCount board q = (randDistMax + 1) / (getValidPlays board).length +
      (if i < (randDistMax + 1) % (getValidPlays board).length then 1 else 0) ∧
    (∀ q1 ∈ getValidPlays board, drawCount board q ≤ drawCount board q1 + 1) ∧
    ((randDistMax + 1) % (getValidPlays board).length = 0 →
      ∀ q1 ∈ getValidPlays board, drawCount board q1 = drawCount board q) ∧
    ((randDistMax + 1) % (getValidPlays board).length ≠ 0 →
      ∃ q1 q2, (getValidPlays board)[0]? = some q1 ∧
        (getValidPlays board)[(getValidPlays board).length - 1]? = some q2 ∧
        drawCount board q1 = drawCount board q2 + 1) := by
  have hi : i < (getValidPlays board).length := (List.getElem?_eq_some.mp hq).1
  have hc := drawCount_eq board hs hq
  refine ⟨rfl, hc, ?_, ?_, ?_⟩
  · intro q1 hq1
    obtain ⟨j, hj⟩ := List.mem_iff_getElem?.mp hq1
    have hc1 := drawCount_eq board hs hj
    generalize drawCount board q = a at hc ⊢
    generalize drawCount board q1 = b at hc1 ⊢
    generalize (randDistMax + 1) / (getValidPlays board).length = d at hc hc1
    split at hc <;> split at hc1 <;> omega
  · intro hdiv q1 hq1
    obtain ⟨j, hj⟩ := List.mem_iff_getElem?.mp hq1
    have hc1 := drawCount_eq board hs hj
    rw [hdiv] at hc hc1
    exact hc1.trans hc.symm
  · intro hnd
    have hmod : (randDistMax + 1) % (getValidPlays board).length <
        (getValidPlays board).length := Nat.mod_lt _ (by omega)
    obtain ⟨q1, h0⟩ : ∃ q1, (getValidPlays board)[0]? = some q1 :=
      ⟨_, List.getElem?_eq_getElem (by omega)⟩
    obtain ⟨q2, hl⟩ : ∃ q2, (getValidPlays board)[(getValidPlays board).length - 1]? =
        some q2 := ⟨_, List.getElem?_eq_getElem (by omega)⟩
    refine ⟨q1, q2, h0, hl, ?_⟩
    have c1 := drawCount_eq board hs h0
    have c2 := drawCount_eq board hs hl
    rw [if_pos (by omega)] at c1
    rw [if_neg (by omega)] at c2
    omega

/-- Witness for C14 (amended): the four opening moves -/
theorem draw_counts_by_index_witness :
    SetOrdered (getValidPlays startState) ∧
      (getValidPlays startState)[0]? = some (2, 3) ∧
      drawCount startState (2, 3) = (randDistMax + 1) / (getValidPlays startState).length +
        (if 0 < (randDistMax + 1) % (getValidPlays startState).length then 1 else 0) :=
  ⟨startState_ordered, rfl,
    (draw_counts_by_index startState startState_ordered 0 (2, 3) rfl).2.1⟩

/-! ## Piece accounting -/

theorem countP_eq_sum_indicator {α : Type} (P : α → Bool) (l : List α) :
    l.countP P = (l.map (fun a => if P a = true then 1 else 0)).sum := by
  induction l with
  | nil => rfl
  | cons a l ih =>
    rw [List.countP_cons, List.map_cons, List.sum_cons, ih]
    omega

theorem gridCount_eq_sum {N M : Nat} (P : Fin N → Fin M → Bool) :
    gridCount P = ∑ rc : Fin N × Fin M, if P rc.1 rc.2 = true then 1 else 0 := by
  rw [Fintype.sum_prod_type, Fin.sum_univ_def]
  unfold gridCount
  congr 1
  apply List.map_congr_left
  intro r _
  rw [countP_eq_sum_indicator, Fin.sum_univ_def]

theorem cellCount_eq_gridCount {N M : Nat} (b : Grid N M) (v : UChar) :
    cellCount b v = gridCount (fun r c => decide (b r c = v)) := rfl

/-- Cell by cell, a committed `play`: the played square goes from Empty to `p`, the cells
passed over by capturing rays go from an opposing piece to `p`, all others are kept. -/
theorem play_cellwise {N M : Nat} {s s1 : OthelloBoard N M} {p : UChar} {x y : Int}
    (h : play s p x y = .ok (s1, true)) :
    p ≠ 0 ∧ onBoard N M x y = true ∧
    (∃ a c, Flipped s.board_ p x y a c) ∧
    ∀ (r : Fin N) (c : Fin M),
      (((r.val : Int) = x ∧ (c.val : Int) = y) ∧
        ¬ Flipped s.board_ p x y (r.val : Int) (c.val : Int) ∧
        s.board_ r c = 0 ∧ s1.board_ r c = p) ∨
      (¬ ((r.val : Int) = x ∧ (c.val : Int) = y) ∧
        Flipped s.board_ p x y (r.val : Int) (c.val : Int) ∧
        s.board_ r c ≠ 0 ∧ s.board_ r c ≠ p ∧ s1.board_ r c = p) ∨
      (¬ ((r.val : Int) = x ∧ (c.val : Int) = y) ∧
        ¬ Flipped s.board_ p x y (r.val : Int) (c.val : Int) ∧
        s1.board_ r c = s.board_ r c) := by
  rcases play_spec s p x y with ⟨hok, b1, h1, hxy, hon, hoff⟩ | ⟨_, h1⟩
  · rw [h1] at h
    cases h
    obtain ⟨_, hempty, dx, dy, hd, k, hk⟩ := hok
    have hp0 : p ≠ 0 := by
      obtain ⟨c, _, hc0, hcp⟩ := hk.2.2
      exact hcp ▸ hc0
    refine ⟨hp0, onBoard_of_readCell hempty, ⟨_, _, dx, dy, k, hd, hk, 1, le_rfl, hk.1, rfl, rfl⟩, ?_⟩
    intro r c
    have e1 := readCell_fin b1 r c
    have e0 := readCell_fin s.board_ r c
    by_cases ho : ((r.val : Int) = x ∧ (c.val : Int) = y)
    · left
      refine ⟨ho, ?_, ?_, ?_⟩
      · rw [ho.1, ho.2]
        exact origin_not_flipped _ _ _ _
      · rw [ho.1, ho.2, hempty] at e0
        exact (Except.ok.inj e0).symm
      · rw [ho.1, ho.2, hxy] at e1
        exact (Except.ok.inj e1).symm
    · right
      by_cases hf : Flipped s.board_ p x y (r.val : Int) (c.val : Int)
      · left
        obtain ⟨ex, ey, k1, _, hk1, t, ht1, ht2, ea, ec⟩ := hf
        obtain ⟨v, hv, hv0, hvp⟩ := hk1.2.1 t ht1 ht2
        rw [← ea, ← ec, e0] at hv
        have hv' := Except.ok.inj hv
        have hf' : Flipped s.board_ p x y (r.val : Int) (c.val : Int) :=
          ⟨ex, ey, k1, ‹_›, hk1, t, ht1, ht2, ea, ec⟩
        rw [hon _ _ hf'] at e1
        exact ⟨ho, hf', hv' ▸ hv0, hv' ▸ hvp, (Except.ok.inj e1).symm⟩
      · right
        rw [hoff _ _ hf ho, e0] at e1
        exact ⟨ho, hf, (Except.ok.inj e1).symm⟩
  · rw [h1] at h
    cases h

theorem origin_sum {N M : Nat} {x y : Int} (hxy : onBoard N M x y = true) :
    (∑ rc : Fin N × Fin M,
      if ((rc.1.val : Int) = x ∧ (rc.2.val : Int) = y) then 1 else 0) = 1 := by
  have hob := onBoard_iff.mp hxy
  have hiff : ∀ rc : Fin N × Fin M, ((rc.1.val : Int) = x ∧ (rc.2.val : Int) = y) ↔
      rc = (⟨x.toNat, by omega⟩, ⟨y.toNat, by omega⟩) := by
    intro rc
    constructor
    · rintro ⟨h1, h2⟩
      apply Prod.ext
      · apply Fin.ext
        show rc.1.val = x.toNat
        omega
      · apply Fin.ext
        show rc.2.val = y.toNat
        omega
    · intro h
      rw [h]
      constructor
      · show ((x.toNat : Nat) : Int) = x
        omega
      · show ((y.toNat : Nat) : Int) = y
        omega
  simp only [hiff]
  rw [Finset.sum_ite_eq']
  simp

theorem sum_add_pointwise {ι : Type} [Fintype ι] (f g k : ι → Nat)
    (hpt : ∀ i, f i + g i = k i) : (∑ i, f i) + (∑ i, g i) = ∑ i, k i := by
  rw [← Finset.sum_add_distrib]
  exact Finset.sum_congr rfl (fun i _ => hpt i)

/-- The counts of Empty cells, of cells of `p` and of cells of other identifiers before and
after a committed `play`, with the set `F` of the flipped cells. -/
theorem play_accounting {N M : Nat} {s s1 : OthelloBoard N M} {p : UChar} {x y : Int}
    (h : play s p x y = .ok (s1, true)) :
    ∃ F : Finset (Fin N × Fin M),
      (∀ rc, rc ∈ F ↔ Flipped s.board_ p x y (rc.1.val : Int) (rc.2.val : Int)) ∧
      1 ≤ F.card ∧
      cellCount s1.board_ 0 + 1 = cellCount s.board_ 0 ∧
      cellCount s1.board_ p = cellCount s.board_ p + 1 + F.card ∧
      otherCount s1.board_ p + F.card = otherCount s.board_ p := by
  classical
  obtain ⟨hp0, hxy, ⟨a0, c0, hfl⟩, hcell⟩ := play_cellwise h
  have hsumF : (Finset.univ.filter (fun rc : Fin N × Fin M =>
      Flipped s.board_ p x y (rc.1.val : Int) (rc.2.val : Int))).card =
      ∑ rc : Fin N × Fin M,
        if Flipped s.board_ p x y (rc.1.val : Int) (rc.2.val : Int) then 1 else 0 :=
    Finset.card_filter _ _
  have hO := origin_sum hxy
  refine ⟨Finset.univ.filter (fun rc : Fin N × Fin M =>
      Flipped s.board_ p x y (rc.1.val : Int) (rc.2.val : Int)), ?_, ?_, ?_, ?_, ?_⟩
  · intro rc
    simp
  · obtain ⟨dx, dy, k, _, hk, t, ht1, ht2, ea, ec⟩ := hfl
    obtain ⟨v, hv, _, _⟩ := hk.2.1 t ht1 ht2
    have hob := onBoard_iff.mp (onBoard_of_readCell hv)
    rw [← ea, ← ec] at hob
    apply Finset.card_pos.mpr
    refine ⟨(⟨a0.toNat, by omega⟩, ⟨c0.toNat, by omega⟩), ?_⟩
    simp only [Finset.mem_filter, Finset.mem_univ, true_and]
    have e1 : ((a0.toNat : Nat) : Int) = a0 := by omega
    have e2 : ((c0.toNat : Nat) : Int) = c0 := by omega
    rw [e1, e2]
    exact ⟨dx, dy, k, ‹_›, hk, t, ht1, ht2, ea, ec⟩
  · have key := sum_add_pointwise
      (fun rc : Fin N × Fin M => if decide (s1.board_ rc.1 rc.2 = 0) = true then 1 else 0)
      (fun rc : Fin N × Fin M => if ((rc.1.val : Int) = x ∧ (rc.2.val : Int) = y) then 1 else 0)
      (fun rc : Fin N × Fin M => if decide (s.board_ rc.1 rc.2 = 0) = true then 1 else 0)
      (by
        intro rc
        rcases hcell rc.1 rc.2 with ⟨ho, _, h0, h1⟩ | ⟨ho, _, h0, _, h1⟩ | ⟨ho, _, h1⟩
        · simp [ho, h0, h1, hp0]
        · simp [ho, h0, h1, hp0]
        · simp [ho, h1])
    rw [cellCount_eq_gridCount, cellCount_eq_gridCount, gridCount_eq_sum, gridCount_eq_sum]
    rw [hO] at key
    exact key
  · have key := sum_add_pointwise
      (fun rc : Fin N × Fin M =>
        (if decide (s.board_ rc.1 rc.2 = p) = true then 1 else 0) +
          (if ((rc.1.val : Int) = x ∧ (rc.2.val : Int) = y) then 1 else 0))
      (fun rc : Fin N × Fin M =>
        if Flipped s.board_ p x y (rc.1.val : Int) (rc.2.val : Int) then 1 else 0)
      (fun rc : Fin N × Fin M => if decide (s1.board_ rc.1 rc.2 = p) = true then 1 else 0)
      (by
        intro rc
        rcases hcell rc.1 rc.2 with ⟨ho, hf, h0, h1⟩ | ⟨ho, hf, h0, hp, h1⟩ | ⟨ho, hf, h1⟩
        · simp [ho, h0, h1, Ne.symm hp0, origin_not_flipped]
        · simp [ho, hf, hp, h1]
        · simp [ho, hf, h1])
    rw [Finset.sum_add_distrib, hO, ← hsumF] at key
    rw [cellCount_eq_gridCount, cellCount_eq_gridCount, gridCount_eq_sum, gridCount_eq_sum]
    exact key.symm
  · have key := sum_add_pointwise
      (fun rc : Fin N × Fin M =>
        if decide (s1.board_ rc.1 rc.2 ≠ 0 ∧ s1.board_ rc.1 rc.2 ≠ p) = true then 1 else 0)
      (fun rc : Fin N × Fin M =>
        if Flipped s.board_ p x y (rc.1.val : Int) (rc.2.val : Int) then 1 else 0)
      (fun rc : Fin N × Fin M =>
        if decide (s.board_ rc.1 rc.2 ≠ 0 ∧ s.board_ rc.1 rc.2 ≠ p) = true then 1 else 0)
      (by
        intro rc
        rcases hcell rc.1 rc.2 with ⟨ho, hf, h0, h1⟩ | ⟨ho, hf, h0, hp, h1⟩ | ⟨ho, hf, h1⟩
        · simp [hf, h0, h1]
        · simp [hf, h0, hp, h1]
        · simp [hf, h1])
    rw [← hsumF] at key
    unfold otherCount
    rw [gridCount_eq_sum, gridCount_eq_sum]
    exact key

/-- C18: piece accounting of a successful move.  For every call `play(player, x, y)` that
returns true, the number of Empty cells decreases by exactly 1, no cell that held a piece
becomes Empty, and for some `f ≥ 1`, the number of flipped cells, the number of cells
holding `player` increases by `1 + f` and the total number of cells holding other
identifiers decreases by exactly `f`. -/
theorem play_true_piece_accounting {N M : Nat} (s s1 : OthelloBoard N M) (player : UChar)
    (x y : Int) (h : play s player x y = .ok (s1, true)) :
    cellCount s1.board_ 0 + 1 = cellCount s.board_ 0 ∧
    (∀ r c, s.board_ r c ≠ 0 → s1.board_ r c ≠ 0) ∧
    ∃ f : Nat, 1 ≤ f ∧
      cellCount s1.board_ player = cellCount s.board_ player + (1 + f) ∧
      otherCount s1.board_ player + f = otherCount s.board_ player ∧
      ∃ F : Finset (Fin N × Fin M), F.card = f ∧
        ∀ rc, rc ∈ F ↔ Flipped s.board_ player x y (rc.1.val : Int) (rc.2.val : Int) := by
  obtain ⟨F, hF, hcard, he, hp, ho⟩ := play_accounting h
  obtain ⟨hp0, _, _, hcell⟩ := play_cellwise h
  refine ⟨he, ?_, F.card, hcard, by omega, ho, F, rfl, hF⟩
  intro r c hne
  rcases hcell r c with ⟨_, _, h0, _⟩ | ⟨_, _, _, _, h1⟩ | ⟨_, _, h1⟩
  · exact (hne h0).elim
  · rw [h1]
    exact hp0
  · rw [h1]
    exact hne

/-- Witness for C18: the opening move `play(1, 2, 3)` -/
theorem play_true_piece_accounting_witness :
    ∃ s1 : OthelloBoard 8 8, play startState 1 2 3 = .ok (s1, true) ∧
      cellCount s1.board_ 0 + 1 = cellCount startState.board_ 0 ∧
      ∃ f : Nat, 1 ≤ f ∧
        cellCount s1.board_ 1 = cellCount startState.board_ 1 + (1 + f) ∧
        otherCount s1.board_ 1 + f = otherCount startState.board_ 1 := by
  refine ⟨_, rfl, ?_⟩
  obtain ⟨h1, _, f, hf, h2, h3, _⟩ := play_true_piece_accounting startState _ 1 2 3 rfl
  exact ⟨h1, f, hf, h2, h3⟩

end Othello
